import Mathlib

/-!
Verification of the git-provider detection/parsing core of the repository
(`detectProvider`, `parseRemoteUrl`, the provider registry) and of the
Gitea/Forgejo adapter's tiered retrieval (`viewPR`, `viewIssue`).

The JavaScript source operates on strings with `String.prototype.trim`,
`String.prototype.toLowerCase`, `String.prototype.includes` and five
`RegExp` patterns executed by `String.prototype.match` (unanchored,
leftmost-first, backtracking).  We embed strings as `List Char` and model
the exact five patterns with a small backtracking matcher whose constructs
(`lit`, `opt`, greedy/lazy character-class `plus`, end anchor `$`) are the
only ones occurring in the source patterns, with JavaScript's candidate
ordering (greedy: longest first; lazy: shortest first; `(?:..)?`: present
first) and leftmost-first unanchored search.
-/

set_option maxRecDepth 4096

namespace OMC

/-- JavaScript whitespace (`\s` in regexes, and the set removed by
`String.prototype.trim`): ASCII whitespace, NBSP, Unicode space
separators, line separators and BOM. -/
def jsW (c : Char) : Bool :=
  c = ' ' || c = '\t' || c = '\n' || c = '\r' || c = '\x0b' || c = '\x0c' ||
  c = ' ' || c = ' ' || c = ' ' || c = ' ' ||
  c = ' ' || c = ' ' || c = ' ' || c = ' ' ||
  c = ' ' || c = ' ' || c = ' ' || c = ' ' ||
  c = ' ' || c = ' ' || c = ' ' || c = ' ' ||
  c = ' ' || c = '　' || c = '﻿'

/-- The character class `[^/]` of the source regexes. -/
def notSlash (c : Char) : Bool := c != '/'

/-- The character class `[^:]` of the source regexes. -/
def notColon (c : Char) : Bool := c != ':'

/-- The character class `[^/\s]` of the source regexes. -/
def qC (c : Char) : Bool := !(c = '/' || jsW c)

/-- JavaScript regex `.` (without the `s` flag): any character except the
four line terminators. -/
def dotC (c : Char) : Bool :=
  !(c = '\n' || c = '\r' || c = ' ' || c = ' ')

/-- `String.prototype.trim`: remove leading and trailing JS whitespace. -/
def jsTrim (l : List Char) : List Char :=
  ((l.dropWhile jsW).reverse.dropWhile jsW).reverse

/-- Character-wise lowercasing as used by `toLowerCase` on the URL
strings of interest (ASCII letters map to lowercase, other characters are
fixed). -/
def lowC (c : Char) : Char :=
  if 'A' ≤ c ∧ c ≤ 'Z' then Char.ofNat (c.toNat + 32) else c

/-- `String.prototype.includes`: `needle` occurs contiguously in `hay`. -/
def containsSeq (needle : List Char) : List Char → Bool
  | [] => needle.isPrefixOf []
  | c :: rest => needle.isPrefixOf (c :: rest) || containsSeq needle rest

/-- First success of `f` over a list of candidates, in list order.  This
is the backtracking order of the JS regex engine over an explicit
candidate list. -/
def firstSome {α β : Type} (f : α → Option β) : List α → Option β
  | [] => none
  | a :: as =>
    match f a with
    | some r => some r
    | none => firstSome f as

/-- All ways for a character-class `+` to consume a non-empty prefix of
`cs`, in increasing length (the lazy `+?` order; greedy `+` reverses). -/
def runSplits (p : Char → Bool) : List Char → List (List Char × List Char)
  | [] => []
  | c :: rest =>
    if p c then
      ([c], rest) :: (runSplits p rest).map (fun pr => (c :: pr.1, pr.2))
    else []

/-- Capture environment: group index paired with captured characters,
most recent capture first. -/
abbrev Caps := List (Nat × List Char)

/-- The regex constructs occurring in the five source patterns. -/
inductive RE where
  | lit (s : List Char)
  | seq (a b : RE)
  | opt (a : RE)
  | plus (grp : Option Nat) (lazyQ : Bool) (p : Char → Bool)
  | tailEnd

/-- Record a capture group (if the `+` was a capturing group). -/
def pushCap (grp : Option Nat) (v : List Char) (caps : Caps) : Caps :=
  match grp with
  | some i => (i, v) :: caps
  | none => caps

/-- Backtracking matcher in continuation style: `matchRE re cs caps k`
tries every way `re` can consume a prefix of `cs` (in the JS engine's
priority order) and hands the remainder and captures to `k`, returning
the first overall success. -/
def matchRE : RE → List Char → Caps → (List Char → Caps → Option Caps) → Option Caps
  | .lit s, cs, caps, k =>
    if s.isPrefixOf cs then k (cs.drop s.length) caps else none
  | .seq a b, cs, caps, k =>
    matchRE a cs caps (fun cs2 caps2 => matchRE b cs2 caps2 k)
  | .opt a, cs, caps, k =>
    match matchRE a cs caps k with
    | some r => some r
    | none => k cs caps
  | .plus grp lz p, cs, caps, k =>
    firstSome (fun pr => k pr.2 (pushCap grp pr.1 caps))
      (if lz then runSplits p cs else (runSplits p cs).reverse)
  | .tailEnd, cs, caps, k =>
    if cs.isEmpty then k cs caps else none

/-- Unanchored leftmost-first search (`String.prototype.match` without
the `g` flag): try each start position from the left, return the captures
of the first match. -/
def searchRE (re : RE) (cs : List Char) : Option Caps :=
  firstSome (fun suf => matchRE re suf [] (fun _ caps => some caps)) cs.tails

/-- Read group `i` of a match result (JS `m[i]`). -/
def grp (caps : Caps) (i : Nat) : List Char := (caps.lookup i).getD []

/-- The closed provider enumeration of `types.ts`. -/
inductive ProviderName where
  | github | gitlab | bitbucket | azureDevops | gitea | forgejo | unknown
deriving DecidableEq, Repr

/-- The needle `dev.azure.com`. -/
def azL : List Char := 'd' :: 'e' :: 'v' :: '.' :: 'a' :: 'z' :: 'u' :: 'r' :: 'e' :: '.' :: 'c' :: 'o' :: 'm' ::[]

/-- The needle `ssh.dev.azure.com`. -/
def sshAzL : List Char :=
  's' :: 's' :: 'h' :: '.' :: 'd' :: 'e' :: 'v' :: '.' :: 'a' :: 'z' :: 'u' :: 'r' :: 'e' :: '.' :: 'c' :: 'o' :: 'm' ::[]

/-- The needle `visualstudio.com`. -/
def vsL : List Char :=
  'v' :: 'i' :: 's' :: 'u' :: 'a' :: 'l' :: 's' :: 't' :: 'u' :: 'd' :: 'i' :: 'o' :: '.' :: 'c' :: 'o' :: 'm' ::[]

/-- The needle `github.com`. -/
def ghL : List Char := 'g' :: 'i' :: 't' :: 'h' :: 'u' :: 'b' :: '.' :: 'c' :: 'o' :: 'm' ::[]

/-- The needle `gitlab.com`. -/
def glL : List Char := 'g' :: 'i' :: 't' :: 'l' :: 'a' :: 'b' :: '.' :: 'c' :: 'o' :: 'm' ::[]

/-- The needle `bitbucket.org`. -/
def bbL : List Char := 'b' :: 'i' :: 't' :: 'b' :: 'u' :: 'c' :: 'k' :: 'e' :: 't' :: '.' :: 'o' :: 'r' :: 'g' ::[]

/-- The heuristic needle `gitlab`. -/
def glHeurL : List Char := 'g' :: 'i' :: 't' :: 'l' :: 'a' :: 'b' ::[]

/-- The heuristic needle `gitea`. -/
def geHeurL : List Char := 'g' :: 'i' :: 't' :: 'e' :: 'a' ::[]

/-- The heuristic needle `forgejo`. -/
def fjHeurL : List Char := 'f' :: 'o' :: 'r' :: 'g' :: 'e' :: 'j' :: 'o' ::[]

/-- `detectProvider` of `providers/index.ts` on the character list: an
ordered cascade of substring checks over the lowercased URL.  The three
self-hosted heuristics are the case-insensitive regex tests
`/gitlab/i`, `/gitea/i`, `/forgejo/i`, which on the already lowercased
string are plain substring tests. -/
def detectProviderL (remoteUrl : List Char) : ProviderName :=
  let url := remoteUrl.map lowC
  if containsSeq azL url || containsSeq sshAzL url || containsSeq vsL url then
    .azureDevops
  else if containsSeq ghL url then
    .github
  else if containsSeq glL url then
    .gitlab
  else if containsSeq bbL url then
    .bitbucket
  else if containsSeq glHeurL url then
    .gitlab
  else if containsSeq geHeurL url then
    .gitea
  else if containsSeq fjHeurL url then
    .forgejo
  else
    .unknown

/-- `detectProvider` on Lean strings. -/
def detectProvider (remoteUrl : String) : ProviderName :=
  detectProviderL remoteUrl.data

/-- `RemoteUrlInfo` of `types.ts`. -/
structure RemoteUrlInfo where
  provider : ProviderName
  host : String
  owner : String
  repo : String
deriving DecidableEq, Repr

/-- The characters of the literal `.git` suffix. -/
def gitL : List Char := '.' :: 'g' :: 'i' :: 't' ::[]

/-- The common tail `([^/\s]+?)(?:\.git)?$` of all five source patterns:
lazily captured final segment (group 3), optional `.git`, end of input. -/
def tailRE : RE :=
  .seq (.plus (some 3) true qC)
    (.seq (.opt (.lit gitL)) .tailEnd)

/-- The shared suffix `(.+?)\/([^/\s]+?)(?:\.git)?$` of the three generic
patterns: lazy owner path (group 2), a slash, then the final segment. -/
def ownerTail : RE :=
  .seq (.plus (some 2) true dotC) (.seq (.lit ('/' ::[])) tailRE)

/-- `/https?:\/\/dev\.azure\.com\/([^/]+)\/([^/]+)\/_git\/([^/\s]+?)(?:\.git)?$/` -/
def azureHttpsRE : RE :=
  .seq (.lit ('h' :: 't' :: 't' :: 'p' ::[]))
    (.seq (.opt (.lit ('s' ::[])))
      (.seq (.lit (':' :: '/' :: '/' :: 'd' :: 'e' :: 'v' :: '.' :: 'a' :: 'z' :: 'u' :: 'r' :: 'e' :: '.' :: 'c' :: 'o' :: 'm' :: '/' ::[]))
        (.seq (.plus (some 1) false notSlash)
          (.seq (.lit ('/' ::[]))
            (.seq (.plus (some 2) false notSlash)
              (.seq (.lit ('/' :: '_' :: 'g' :: 'i' :: 't' :: '/' ::[])) tailRE))))))

/-- `/git@ssh\.dev\.azure\.com:v3\/([^/]+)\/([^/]+)\/([^/\s]+?)(?:\.git)?$/` -/
def azureSshRE : RE :=
  .seq (.lit ('g' :: 'i' :: 't' :: '@' :: 's' :: 's' :: 'h' :: '.' :: 'd' :: 'e' :: 'v' :: '.' :: 'a' :: 'z' :: 'u' :: 'r' :: 'e' :: '.' :: 'c' :: 'o' :: 'm' :: ':' :: 'v' :: '3' :: '/' ::[]))
    (.seq (.plus (some 1) false notSlash)
      (.seq (.lit ('/' ::[]))
        (.seq (.plus (some 2) false notSlash)
          (.seq (.lit ('/' ::[])) tailRE))))

/-- `/https?:\/\/([^/]+)\/(.+?)\/([^/\s]+?)(?:\.git)?$/` -/
def httpsRE : RE :=
  .seq (.lit ('h' :: 't' :: 't' :: 'p' ::[]))
    (.seq (.opt (.lit ('s' ::[])))
      (.seq (.lit (':' :: '/' :: '/' ::[]))
        (.seq (.plus (some 1) false notSlash)
          (.seq (.lit ('/' ::[])) ownerTail))))

/-- `/git@([^:]+):(.+?)\/([^/\s]+?)(?:\.git)?$/` -/
def scpRE : RE :=
  .seq (.lit ('g' :: 'i' :: 't' :: '@' ::[]))
    (.seq (.plus (some 1) false notColon)
      (.seq (.lit (':' ::[])) ownerTail))

/-- `/ssh:\/\/git@([^/]+)\/(.+?)\/([^/\s]+?)(?:\.git)?$/` -/
def sshUrlRE : RE :=
  .seq (.lit ('s' :: 's' :: 'h' :: ':' :: '/' :: '/' :: 'g' :: 'i' :: 't' :: '@' ::[]))
    (.seq (.plus (some 1) false notSlash)
      (.seq (.lit ('/' ::[])) ownerTail))

/-- The body of `parseRemoteUrl` after the initial `url.trim()`: try the
five patterns in source order, first structural match wins.  The generic
branches re-run `detectProvider` on the trimmed URL. -/
def parseTrimmed (trimmed : List Char) : Option RemoteUrlInfo :=
  match searchRE azureHttpsRE trimmed with
  | some caps =>
    some { provider := .azureDevops, host := "dev.azure.com",
           owner := ⟨grp caps 1 ++ '/' :: grp caps 2⟩, repo := ⟨grp caps 3⟩ }
  | none =>
  match searchRE azureSshRE trimmed with
  | some caps =>
    some { provider := .azureDevops, host := "dev.azure.com",
           owner := ⟨grp caps 1 ++ '/' :: grp caps 2⟩, repo := ⟨grp caps 3⟩ }
  | none =>
  match searchRE httpsRE trimmed with
  | some caps =>
    some { provider := detectProviderL trimmed, host := ⟨grp caps 1⟩,
           owner := ⟨grp caps 2⟩, repo := ⟨grp caps 3⟩ }
  | none =>
  match searchRE scpRE trimmed with
  | some caps =>
    some { provider := detectProviderL trimmed, host := ⟨grp caps 1⟩,
           owner := ⟨grp caps 2⟩, repo := ⟨grp caps 3⟩ }
  | none =>
  match searchRE sshUrlRE trimmed with
  | some caps =>
    some { provider := detectProviderL trimmed, host := ⟨grp caps 1⟩,
           owner := ⟨grp caps 2⟩, repo := ⟨grp caps 3⟩ }
  | none => none

/-- `parseRemoteUrl` of `providers/index.ts`: `url.trim()` followed by
the pattern cascade. -/
def parseRemoteUrl (url : String) : Option RemoteUrlInfo :=
  parseTrimmed (jsTrim url.data)

/-! ## Provider registry (`initRegistry` / `getProvider`)

The registry maps provider names to adapter instances.  JavaScript object
identity is modelled by tagging each constructed instance with its class
and a distinct allocation index (the position of its `new` expression in
the `initRegistry` source, in evaluation order). -/

/-- The five adapter classes imported by `providers/index.ts`. -/
inductive AdapterClass where
  | githubP | gitlabP | bitbucketP | azureP | giteaP
deriving DecidableEq, Repr

/-- An adapter instance: its class plus its identity (allocation index). -/
structure GitProviderInst where
  cls : AdapterClass
  instId : Nat
deriving DecidableEq, Repr

/-- The registry map type (a `Map` built from a literal pair list whose
keys are distinct; lookup is by key). -/
abbrev Registry := List (ProviderName × GitProviderInst)

/-- The pair list built on first initialization: one fresh instance per
entry, with `gitea` and `forgejo` each getting their own `new
GiteaProvider()`. -/
def registryEntries : Registry :=
  [ (.github, ⟨.githubP, 0⟩),
    (.gitlab, ⟨.gitlabP, 1⟩),
    (.bitbucket, ⟨.bitbucketP, 2⟩),
    (.azureDevops, ⟨.azureP, 3⟩),
    (.gitea, ⟨.giteaP, 4⟩),
    (.forgejo, ⟨.giteaP, 5⟩) ]

/-- `initRegistry`: lazy idempotent initialization of the module-level
singleton.  The `Option Registry` argument/result is the module-level
mutable `providerRegistry` before and after the call. -/
def initRegistry (st : Option Registry) : Registry × Option Registry :=
  match st with
  | some r => (r, some r)
  | none => (registryEntries, some registryEntries)

/-- `getProvider`: look the name up in the (lazily built) registry,
`null` when absent.  Returns the result together with the module state. -/
def getProvider (st : Option Registry) (name : ProviderName) :
    Option GitProviderInst × Option Registry :=
  let p := initRegistry st
  (p.1.lookup name, p.2)

/-! ## Gitea/Forgejo adapter (`gitea.ts`): `viewPR` / `viewIssue`

The adapter's externally visible control flow is embedded exactly; the
outcomes of its effectful tiers (the `tea` CLI subprocess including JSON
parsing and field mapping, and the `curl` REST call including JSON
parsing and field mapping) are supplied as oracles in a `GiteaEnv`
environment, `none` standing for any thrown failure (missing binary,
non-zero exit, timeout, parse error) that the source swallows with
`try/catch`.  The JS `number` argument is modelled as `ℚ`, on which
`Number.isInteger` is the predicate `den = 1`.  Each call returns its
result together with the list of tiers it actually attempted, so that
"no subprocess execution and no network request" is a statement about
the trace. -/

/-- `PRInfo` of `types.ts` (fields as retained by the adapter). -/
structure PRInfo where
  title : String
  headBranch : String
  baseBranch : String
  url : String
  body : String
  author : Option String
deriving DecidableEq, Repr

/-- `IssueInfo` of `types.ts`. -/
structure IssueInfo where
  title : String
  body : String
  url : String
  labels : Option (List String)
deriving DecidableEq, Repr

/-- One attempted tier of the two-tier retrieval strategy. -/
inductive Tier where
  | cliCall | restCall
deriving DecidableEq, Repr

/-- JS truthiness of an optional string (`undefined` and `""` are
falsy). -/
def optTruthy : Option String → Bool
  | none => false
  | some s => s != ""

/-- Environment for the Gitea adapter: process environment variables and
the oracles for the two effectful tiers. -/
structure GiteaEnv where
  giteaUrl : Option String
  giteaToken : Option String
  teaPR : ℚ → Option PRInfo
  teaIssue : ℚ → Option IssueInfo
  restPR : ℚ → Option String → Option String → Option PRInfo
  restIssue : ℚ → Option String → Option String → Option IssueInfo

/-- `Number.isInteger`. -/
def isIntegerQ (q : ℚ) : Bool := q.den == 1

/-- `GiteaProvider.viewPRviaRest`: skipped (null, no request) when the
base URL env var or either coordinate is falsy, otherwise one REST
attempt whose failure is swallowed to null. -/
def viewPRviaRest (env : GiteaEnv) (number : ℚ)
    (owner repo : Option String) : Option PRInfo × List Tier :=
  if !optTruthy env.giteaUrl || !optTruthy owner || !optTruthy repo then
    (none, [])
  else
    (env.restPR number owner repo, [.restCall])

/-- `GiteaProvider.viewPR`: reject non-positive or non-integer numbers
before any I/O, then CLI tier, then REST tier. -/
def viewPR (env : GiteaEnv) (number : ℚ)
    (owner repo : Option String) : Option PRInfo × List Tier :=
  if !isIntegerQ number || number < 1 then (none, [])
  else
    match env.teaPR number with
    | some info => (some info, [.cliCall])
    | none =>
      let p := viewPRviaRest env number owner repo
      (p.1, .cliCall :: p.2)

/-- `GiteaProvider.viewIssueviaRest`. -/
def viewIssueviaRest (env : GiteaEnv) (number : ℚ)
    (owner repo : Option String) : Option IssueInfo × List Tier :=
  if !optTruthy env.giteaUrl || !optTruthy owner || !optTruthy repo then
    (none, [])
  else
    (env.restIssue number owner repo, [.restCall])

/-- `GiteaProvider.viewIssue`. -/
def viewIssue (env : GiteaEnv) (number : ℚ)
    (owner repo : Option String) : Option IssueInfo × List Tier :=
  if !isIntegerQ number || number < 1 then (none, [])
  else
    match env.teaIssue number with
    | some info => (some info, [.cliCall])
    | none =>
      let p := viewIssueviaRest env number owner repo
      (p.1, .cliCall :: p.2)

/-! ## Basic lemmas about the matcher's building blocks -/

theorem isPrefixOf_self_append (s t : List Char) : s.isPrefixOf (s ++ t) = true :=
  List.isPrefixOf_iff_prefix.mpr ⟨t, rfl⟩

theorem isPrefixOf_ex {s cs : List Char} (h : s.isPrefixOf cs = true) :
    ∃ t, cs = s ++ t := by
  rcases List.isPrefixOf_iff_prefix.mp h with ⟨t, ht⟩
  exact ⟨t, ht.symm⟩

theorem matchRE_lit_append (s rest : List Char) (caps : Caps)
    (k : List Char → Caps → Option Caps) :
    matchRE (.lit s) (s ++ rest) caps k = k rest caps := by
  simp [matchRE, isPrefixOf_self_append, List.drop_left]

theorem matchRE_lit_some {s cs : List Char} {caps : Caps}
    {k : List Char → Caps → Option Caps} {r : Caps}
    (h : matchRE (.lit s) cs caps k = some r) :
    ∃ rest, cs = s ++ rest ∧ k rest caps = some r := by
  by_cases hp : s.isPrefixOf cs = true
  · rcases isPrefixOf_ex hp with ⟨t, rfl⟩
    refine ⟨t, rfl, ?_⟩
    rwa [matchRE_lit_append] at h
  · rw [matchRE, if_neg hp] at h
    exact absurd h (by simp)

theorem matchRE_seq (a b : RE) (cs : List Char) (caps : Caps)
    (k : List Char → Caps → Option Caps) :
    matchRE (.seq a b) cs caps k =
      matchRE a cs caps (fun cs2 caps2 => matchRE b cs2 caps2 k) := rfl

theorem matchRE_end_nil (caps : Caps) (k : List Char → Caps → Option Caps) :
    matchRE .tailEnd [] caps k = k [] caps := by
  simp [matchRE]

theorem matchRE_end_cons (c : Char) (cs : List Char) (caps : Caps)
    (k : List Char → Caps → Option Caps) :
    matchRE .tailEnd (c :: cs) caps k = none := by
  simp [matchRE]

theorem matchRE_end_ne {cs : List Char} (h : cs ≠ []) (caps : Caps)
    (k : List Char → Caps → Option Caps) :
    matchRE .tailEnd cs caps k = none := by
  cases cs with
  | nil => exact absurd rfl h
  | cons c cs' => exact matchRE_end_cons c cs' caps k

theorem isPrefixOf_self (s : List Char) : s.isPrefixOf s = true := by
  have h := isPrefixOf_self_append s []
  rwa [List.append_nil] at h

theorem firstSome_nil {α β : Type} (f : α → Option β) : firstSome f [] = none := rfl

theorem firstSome_cons_some {α β : Type} (f : α → Option β) {x : α} {r : β}
    (xs : List α) (h : f x = some r) : firstSome f (x :: xs) = some r := by
  simp [firstSome, h]

theorem firstSome_cons_none {α β : Type} (f : α → Option β) {x : α}
    (xs : List α) (h : f x = none) : firstSome f (x :: xs) = firstSome f xs := by
  simp [firstSome, h]

theorem firstSome_cons_nonex {α β : Type} (f : α → Option β) (x : α)
    (xs : List α) (h : f x = none) : firstSome f (x :: xs) = firstSome f xs :=
  firstSome_cons_none f xs h

theorem firstSome_map {α γ β : Type} (f : γ → Option β) (g : α → γ) :
    ∀ l : List α, firstSome f (l.map g) = firstSome (fun x => f (g x)) l
  | [] => rfl
  | x :: xs => by
    simp only [List.map_cons, firstSome]
    cases f (g x) <;> simp [firstSome_map f g xs]

theorem firstSome_congr {α β : Type} {f g : α → Option β} :
    ∀ {l : List α}, (∀ x ∈ l, f x = g x) → firstSome f l = firstSome g l
  | [], _ => rfl
  | x :: xs, h => by
    have hx := h x (List.mem_cons_self x xs)
    have hxs : ∀ y ∈ xs, f y = g y := fun y hy => h y (List.mem_cons_of_mem x hy)
    simp only [firstSome, hx]
    cases g x <;> simp [firstSome_congr hxs]

theorem firstSome_none {α β : Type} {f : α → Option β} :
    ∀ {l : List α}, (∀ x ∈ l, f x = none) → firstSome f l = none
  | [], _ => rfl
  | x :: xs, h => by
    have hx := h x (List.mem_cons_self x xs)
    have hxs : ∀ y ∈ xs, f y = none := fun y hy => h y (List.mem_cons_of_mem x hy)
    simp [firstSome, hx, firstSome_none hxs]

theorem firstSome_eq_some {α β : Type} {f : α → Option β} {r : β} :
    ∀ {l : List α}, firstSome f l = some r → ∃ x ∈ l, f x = some r
  | [], h => by simp [firstSome] at h
  | x :: xs, h => by
    by_cases hx : f x = none
    · rw [firstSome_cons_none f xs hx] at h
      rcases firstSome_eq_some h with ⟨y, hy, hfy⟩
      exact ⟨y, List.mem_cons_of_mem x hy, hfy⟩
    · rcases Option.ne_none_iff_exists'.mp hx with ⟨v, hv⟩
      rw [firstSome_cons_some f xs hv] at h
      exact ⟨x, List.mem_cons_self x xs, hv.trans h⟩

theorem firstSome_append_some {α β : Type} (f : α → Option β) {l₁ : List α}
    (l₂ : List α) {r : β} (h : firstSome f l₁ = some r) :
    firstSome f (l₁ ++ l₂) = some r := by
  induction l₁ with
  | nil => simp [firstSome] at h
  | cons x xs ih =>
    simp only [List.cons_append, firstSome] at h ⊢
    cases hfx : f x <;> simp [hfx] at h ⊢ <;> simp_all [ih]

theorem runSplits_mem {p : Char → Bool} :
    ∀ {cs : List Char} {pr : List Char × List Char}, pr ∈ runSplits p cs →
      cs = pr.1 ++ pr.2 ∧ pr.1 ≠ [] ∧ ∀ c ∈ pr.1, p c = true := by
  intro cs
  induction cs with
  | nil => intro pr h; simp [runSplits] at h
  | cons c rest ih =>
    intro pr h
    by_cases hc : p c = true
    · simp only [runSplits, hc, if_pos, List.mem_cons, List.mem_map] at h
      rcases h with h | ⟨q, hq, rfl⟩
      · subst h
        exact ⟨rfl, by simp, by simp [hc]⟩
      · rcases ih hq with ⟨h1, h2, h3⟩
        refine ⟨by simp [h1], by simp, ?_⟩
        intro d hd
        rcases List.mem_cons.mp hd with rfl | hd
        · exact hc
        · exact h3 d hd
    · simp [runSplits, hc] at h

/-! ## Characterization of the shared tail `([^/\s]+?)(?:\.git)?$`

On input `s` the tail matches exactly when `s` is non-empty and free of
slashes and whitespace, and the lazy group 3 then captures `s` with one
trailing `.git` removed when `s` is long enough to leave a non-empty
capture (`stripOne`). -/

/-- The final-segment capture: remove one trailing `.git` if doing so
leaves at least one character, otherwise keep the segment whole. -/
def stripOne (s : List Char) : List Char :=
  if 5 ≤ s.length ∧ gitL.isSuffixOf s = true then s.take (s.length - 4) else s

theorem gitL_all_qC : ∀ c ∈ gitL, qC c = true := by decide

theorem sfx_ex {s t : List Char} (h : s.isSuffixOf t = true) : ∃ p, t = p ++ s := by
  rcases List.isSuffixOf_iff_suffix.mp h with ⟨p, hp⟩
  exact ⟨p, hp.symm⟩

theorem sfx_self_append (p s : List Char) : s.isSuffixOf (p ++ s) = true :=
  List.isSuffixOf_iff_suffix.mpr ⟨p, rfl⟩

theorem stripOne_of_append {p : List Char} (hp : p ≠ []) :
    stripOne (p ++ gitL) = p := by
  have hl : (p ++ gitL).length = p.length + 4 := by simp [gitL]
  have h5 : 5 ≤ (p ++ gitL).length := by
    rw [hl]
    have : 1 ≤ p.length := List.length_pos.mpr hp
    omega
  rw [stripOne, if_pos ⟨h5, sfx_self_append p gitL⟩, hl]
  simp [List.take_left p gitL]

theorem stripOne_short {s : List Char} (h : ¬(5 ≤ s.length ∧ gitL.isSuffixOf s = true)) :
    stripOne s = s := by
  rw [stripOne, if_neg h]

theorem stripOne_single (c : Char) : stripOne [c] = [c] :=
  stripOne_short (by simp)

theorem stripOne_gitL : stripOne gitL = gitL :=
  stripOne_short (by simp [gitL])

theorem stripOne_ne_nil {s : List Char} (h : s ≠ []) : stripOne s ≠ [] := by
  by_cases hc : 5 ≤ s.length ∧ gitL.isSuffixOf s = true
  · rw [stripOne, if_pos hc]
    have : (s.take (s.length - 4)).length = s.length - 4 := by
      rw [List.length_take]
      omega
    intro hnil
    rw [hnil] at this
    simp at this
    omega
  · rwa [stripOne_short hc]

theorem stripOne_cons {c : Char} {s : List Char} (h0 : s ≠ []) (h1 : s ≠ gitL) :
    stripOne (c :: s) = c :: stripOne s := by
  by_cases hsfx : gitL.isSuffixOf s = true
  · rcases sfx_ex hsfx with ⟨p, rfl⟩
    have hp : p ≠ [] := by
      rintro rfl
      simp at h1
    have e1 : stripOne (p ++ gitL) = p := stripOne_of_append hp
    have e2 : stripOne ((c :: p) ++ gitL) = c :: p :=
      stripOne_of_append (List.cons_ne_nil c p)
    have e3 : c :: (p ++ gitL) = (c :: p) ++ gitL := by simp
    rw [e3, e2, e1]
  · by_cases hsfx2 : gitL.isSuffixOf (c :: s) = true
    · rcases sfx_ex hsfx2 with ⟨p, hp⟩
      cases p with
      | cons d p' =>
        exfalso
        have hds : c = d ∧ s = p' ++ gitL := by
          simpa using hp
        rw [hds.2] at hsfx
        exact hsfx (sfx_self_append p' gitL)
      | nil =>
        have hcs : c :: s = gitL := by simpa using hp
        have e1 : stripOne (c :: s) = c :: s := by
          rw [hcs, stripOne_gitL]
        have e2 : stripOne s = s := stripOne_short (fun hc => hsfx hc.2)
        rw [e1, e2]
    · have e1 : stripOne (c :: s) = c :: s :=
        stripOne_short (fun hc => hsfx2 hc.2)
      have e2 : stripOne s = s := stripOne_short (fun hc => hsfx hc.2)
      rw [e1, e2]

/-- If the stripped final segment still ends in `.git`, then the raw
segment ended in `.git.git` or was exactly `.git`. -/
theorem stripOne_endsgit {s : List Char} (h : gitL.isSuffixOf (stripOne s) = true) :
    (gitL ++ gitL).isSuffixOf s = true ∨ stripOne s = gitL := by
  by_cases hc : 5 ≤ s.length ∧ gitL.isSuffixOf s = true
  · left
    rcases sfx_ex hc.2 with ⟨p, rfl⟩
    have hp : p ≠ [] := by
      rintro rfl
      simp [gitL] at hc
    rw [stripOne_of_append hp] at h
    rcases sfx_ex h with ⟨q, rfl⟩
    have : (q ++ gitL) ++ gitL = q ++ (gitL ++ gitL) := by simp
    rw [this]
    exact sfx_self_append q (gitL ++ gitL)
  · rw [stripOne_short hc] at h ⊢
    right
    rcases sfx_ex h with ⟨p, rfl⟩
    have hlen : ¬5 ≤ p.length + 4 := by
      intro h5
      exact hc ⟨by simpa [gitL] using h5, h⟩
    have : p = [] := by
      cases p with
      | nil => rfl
      | cons d p' => simp at hlen
    rw [this]
    simp

/-! ## Evaluating the tail pattern -/

/-- The tail matcher as invoked at the end of every source pattern: the
continuation is the top-level success continuation of `searchRE`. -/
def matchT (s : List Char) (caps : Caps) : Option Caps :=
  matchRE tailRE s caps (fun _ c => some c)

/-- The continuation after group 3: `(?:\.git)?$` succeeds exactly on
`.git` and on the empty remainder. -/
theorem matchRE_optgit (rest : List Char) (caps : Caps) :
    matchRE (.seq (.opt (.lit gitL)) .tailEnd) rest caps (fun _ c => some c) =
      if rest = gitL ∨ rest = [] then some caps else none := by
  rw [matchRE_seq]
  by_cases hp : gitL.isPrefixOf rest = true
  · rcases isPrefixOf_ex hp with ⟨t, rfl⟩
    show matchRE (.opt (.lit gitL)) _ _ _ = _
    rw [matchRE]
    rw [matchRE_lit_append]
    cases t with
    | nil =>
      rw [matchRE_end_nil]
      simp [gitL]
    | cons c t' =>
      rw [matchRE_end_cons]
      have h1 : gitL ++ c :: t' ≠ gitL := by
        intro hcon
        have := congrArg List.length hcon
        simp at this
      have h2 : gitL ++ c :: t' ≠ [] := by simp
      rw [matchRE_end_ne h2]
      rw [if_neg (by tauto)]
  · show matchRE (.opt (.lit gitL)) _ _ _ = _
    rw [matchRE]
    rw [matchRE, if_neg hp]
    cases rest with
    | nil => rw [matchRE_end_nil]; simp
    | cons c t' =>
      rw [matchRE_end_cons]
      have h1 : c :: t' ≠ gitL := by
        intro hcon
        rw [hcon] at hp
        exact hp (isPrefixOf_self gitL)
      rw [if_neg (by simp [h1])]

theorem matchT_nil (caps : Caps) : matchT [] caps = none := by
  simp [matchT, tailRE, matchRE, runSplits, firstSome]

theorem matchT_unfold (s : List Char) (caps : Caps) :
    matchT s caps =
      firstSome
        (fun pr => matchRE (.seq (.opt (.lit gitL)) .tailEnd) pr.2
          ((3, pr.1) :: caps) (fun _ c => some c))
        (runSplits qC s) := by
  simp [matchT, tailRE, matchRE, pushCap]

theorem matchT_bad {s : List Char} (c0 : Char) (hc0 : c0 ∈ s)
    (hbad : qC c0 = false) (caps : Caps) : matchT s caps = none := by
  rw [matchT_unfold]
  apply firstSome_none
  intro pr hpr
  rcases runSplits_mem hpr with ⟨hsplit, hne, hall⟩
  have hmem2 : c0 ∈ pr.2 := by
    rw [hsplit] at hc0
    rcases List.mem_append.mp hc0 with h | h
    · rw [hall c0 h] at hbad
      exact absurd hbad (by simp)
    · exact h
  rw [matchRE_optgit]
  rw [if_neg]
  rintro (h | h)
  · rw [h] at hmem2
    rw [gitL_all_qC c0 hmem2] at hbad
    exact absurd hbad (by simp)
  · rw [h] at hmem2
    simp at hmem2

theorem matchT_aux :
    ∀ (s : List Char), s ≠ [] → (∀ c ∈ s, qC c = true) →
      ∀ (C : List Char) (caps : Caps),
        firstSome
          (fun pr => matchRE (.seq (.opt (.lit gitL)) .tailEnd) pr.2
            ((3, C ++ pr.1) :: caps) (fun _ c => some c))
          (runSplits qC s) = some ((3, C ++ stripOne s) :: caps) := by
  intro s
  induction s with
  | nil => intro h; exact absurd rfl h
  | cons c s' ih =>
    intro _ hq C caps
    have hqc : qC c = true := hq c (List.mem_cons_self c s')
    rw [runSplits, if_pos hqc]
    by_cases h1 : s' = gitL ∨ s' = []
    · have hstrip : C ++ stripOne (c :: s') = C ++ [c] := by
        congr 1
        rcases h1 with h1 | h1
        · rw [h1]
          have e : c :: gitL = [c] ++ gitL := by simp
          rw [e, stripOne_of_append (by simp)]
        · rw [h1, stripOne_single]
      apply firstSome_cons_some
      show matchRE (.seq (.opt (.lit gitL)) .tailEnd) s' ((3, C ++ [c]) :: caps)
        (fun _ c => some c) = _
      rw [matchRE_optgit, if_pos h1, hstrip]
    · have hs'ne : s' ≠ [] := fun h => h1 (Or.inr h)
      have hs'git : s' ≠ gitL := fun h => h1 (Or.inl h)
      have hq' : ∀ d ∈ s', qC d = true :=
        fun d hd => hq d (List.mem_cons_of_mem c hd)
      rw [firstSome_cons_none _ _
        (by
          show matchRE (.seq (.opt (.lit gitL)) .tailEnd) s' ((3, C ++ [c]) :: caps)
            (fun _ c => some c) = none
          rw [matchRE_optgit, if_neg h1])]
      rw [firstSome_map]
      have key :
          firstSome
            (fun (pr : List Char × List Char) =>
              matchRE (.seq (.opt (.lit gitL)) .tailEnd) pr.2
                ((3, C ++ (c :: pr.1)) :: caps) (fun _ c => some c))
            (runSplits qC s') = some ((3, (C ++ [c]) ++ stripOne s') :: caps) := by
        rw [← ih hs'ne hq' (C ++ [c]) caps]
        apply firstSome_congr
        intro pr _
        have e : C ++ (c :: pr.1) = (C ++ [c]) ++ pr.1 := by simp
        rw [e]
      rw [key, stripOne_cons hs'ne hs'git]
      have e2 : (C ++ [c]) ++ stripOne s' = C ++ (c :: stripOne s') := by simp
      rw [e2]

theorem matchT_eval {s : List Char} (h0 : s ≠ []) (hq : ∀ c ∈ s, qC c = true)
    (caps : Caps) : matchT s caps = some ((3, stripOne s) :: caps) := by
  rw [matchT_unfold]
  have := matchT_aux s h0 hq [] caps
  simpa using this

theorem matchT_some {s : List Char} {caps r : Caps} (h : matchT s caps = some r) :
    s ≠ [] ∧ (∀ c ∈ s, qC c = true) ∧ r = (3, stripOne s) :: caps := by
  rcases hs : s with _ | ⟨c, s'⟩
  · rw [hs, matchT_nil] at h
    exact absurd h (by simp)
  · rw [← hs]
    by_cases hq : ∀ c ∈ s, qC c = true
    · refine ⟨by rw [hs]; simp, hq, ?_⟩
      rw [matchT_eval (by rw [hs]; simp) hq] at h
      exact (Option.some_inj.mp h).symm
    · push_neg at hq
      rcases hq with ⟨c0, hc0, hbad⟩
      rw [matchT_bad c0 hc0 (by simpa using hbad) caps] at h
      exact absurd h (by simp)

/-! ## Evaluating the source patterns on structured inputs

These lemmas compute a whole-pattern match on an input presented in the
shape `literal ++ run ++ separator ++ ...`, following the engine's
candidate order: a greedy class-`plus` whose run is delimited by a
non-class character commits to the full run first, and the lazy owner
group commits to the shortest prefix whose remainder parses as
`/{final-segment}`. -/

theorem runSplits_nil (p : Char → Bool) : runSplits p [] = [] := rfl

theorem runSplits_cons (p : Char → Bool) (c : Char) (rest : List Char) :
    runSplits p (c :: rest) =
      if p c then
        ([c], rest) :: (runSplits p rest).map (fun pr => (c :: pr.1, pr.2))
      else [] := rfl

theorem runSplits_last {p : Char → Bool} :
    ∀ (A : List Char), A ≠ [] → (∀ c ∈ A, p c = true) →
      ∀ (b : Char), p b = false → ∀ (rest : List Char),
        ∃ l, runSplits p (A ++ b :: rest) = l ++ [(A, b :: rest)] := by
  intro A
  induction A with
  | nil => intro h; exact absurd rfl h
  | cons a A' ih =>
    intro _ hall b hb rest
    have ha : p a = true := hall a (List.mem_cons_self a A')
    cases A' with
    | nil =>
      refine ⟨[], ?_⟩
      rw [List.cons_append, List.nil_append, runSplits_cons, if_pos ha,
        runSplits_cons, if_neg (by simp [hb])]
      simp
    | cons a2 A'' =>
      have hall' : ∀ c ∈ a2 :: A'', p c = true :=
        fun c hc => hall c (List.mem_cons_of_mem a hc)
      rcases ih (by simp) hall' b hb rest with ⟨l, hl⟩
      refine ⟨([a], (a2 :: A'') ++ b :: rest) ::
        l.map (fun pr => (a :: pr.1, pr.2)), ?_⟩
      rw [List.cons_append, runSplits_cons, if_pos ha]
      rw [show (a2 :: A'') ++ b :: rest = a2 :: (A'' ++ b :: rest) from rfl] at hl
      rw [show a2 :: A'' ++ b :: rest = a2 :: (A'' ++ b :: rest) from rfl, hl]
      simp

theorem matchRE_plus_greedy {p : Char → Bool} {g : Option Nat}
    {A : List Char} {b : Char} {rest : List Char} {caps : Caps}
    {k : List Char → Caps → Option Caps} {r : Caps}
    (hA : A ≠ []) (hall : ∀ c ∈ A, p c = true) (hb : p b = false)
    (hk : k (b :: rest) (pushCap g A caps) = some r) :
    matchRE (.plus g false p) (A ++ b :: rest) caps k = some r := by
  rw [matchRE]
  simp only [Bool.false_eq_true, if_neg, ite_false]
  rcases runSplits_last A hA hall b hb rest with ⟨l, hl⟩
  rw [hl, List.reverse_append]
  simp only [List.reverse_cons, List.reverse_nil, List.nil_append, List.singleton_append]
  exact firstSome_cons_some _ _ hk

theorem contSlash_none {B : List Char} (d : Char) (A'' : List Char) (caps : Caps) :
    matchRE (.seq (.lit ('/' :: [])) tailRE) (d :: (A'' ++ '/' :: B)) caps
      (fun _ c => some c) = none := by
  rw [matchRE_seq]
  by_cases hd : d = '/'
  · subst hd
    rw [show ('/' :: (A'' ++ '/' :: B)) = ('/' :: []) ++ (A'' ++ '/' :: B) from rfl]
    rw [matchRE_lit_append]
    exact matchT_bad '/' (by simp) (by decide) caps
  · rw [matchRE]
    rw [if_neg]
    simp only [List.isPrefixOf]
    have hne : ('/' == d) = false := by
      simpa using fun h => hd h.symm
    simp [hne]

theorem ownerTail_aux :
    ∀ (A : List Char), A ≠ [] → (∀ c ∈ A, dotC c = true) →
      ∀ (B : List Char), B ≠ [] → (∀ c ∈ B, qC c = true) →
        ∀ (C : List Char) (caps : Caps),
          firstSome
            (fun pr => matchRE (.seq (.lit ('/' :: [])) tailRE) pr.2
              ((2, C ++ pr.1) :: caps) (fun _ c => some c))
            (runSplits dotC (A ++ '/' :: B)) =
          some ((3, stripOne B) :: (2, C ++ A) :: caps) := by
  intro A
  induction A with
  | nil => intro h; exact absurd rfl h
  | cons a A' ih =>
    intro _ hdot B hB0 hBq C caps
    have ha : dotC a = true := hdot a (List.mem_cons_self a A')
    rw [show (a :: A') ++ '/' :: B = a :: (A' ++ '/' :: B) from rfl]
    rw [runSplits_cons, if_pos ha]
    cases A' with
    | nil =>
      apply firstSome_cons_some
      show matchRE (.seq (.lit ('/' :: [])) tailRE) ([] ++ '/' :: B)
        ((2, C ++ [a]) :: caps) (fun _ c => some c) = _
      rw [List.nil_append, matchRE_seq]
      rw [show ('/' :: B) = ('/' :: []) ++ B from rfl]
      rw [matchRE_lit_append]
      exact matchT_eval hB0 hBq _
    | cons a2 A'' =>
      rw [firstSome_cons_nonex
        (fun pr => matchRE (.seq (.lit ('/' :: [])) tailRE) pr.2
          ((2, C ++ pr.1) :: caps) (fun _ c => some c))
        (([a], a2 :: A'' ++ '/' :: B))
        (List.map (fun pr => (a :: pr.1, pr.2)) (runSplits dotC (a2 :: A'' ++ '/' :: B)))
        (contSlash_none a2 A'' ((2, C ++ [a]) :: caps))]
      rw [firstSome_map]
      have hdot' : ∀ c ∈ a2 :: A'', dotC c = true :=
        fun c hc => hdot c (List.mem_cons_of_mem a hc)
      have key := ih (by simp) hdot' B hB0 hBq (C ++ [a]) caps
      rw [show some ((3, stripOne B) :: (2, C ++ (a :: a2 :: A'')) :: caps) =
          some ((3, stripOne B) :: (2, (C ++ [a]) ++ (a2 :: A'')) :: caps) from by simp]
      rw [← key]
      apply firstSome_congr
      intro pr _
      have e : C ++ (a :: pr.1) = (C ++ [a]) ++ pr.1 := by simp
      show matchRE (.seq (.lit ('/' :: [])) tailRE) pr.2
          ((2, C ++ (a :: pr.1)) :: caps) (fun _ c => some c) = _
      rw [e]

theorem matchRE_ownerTail {A B : List Char} (hA0 : A ≠ [])
    (hAdot : ∀ c ∈ A, dotC c = true) (hB0 : B ≠ [])
    (hBq : ∀ c ∈ B, qC c = true) (caps : Caps) :
    matchRE ownerTail (A ++ '/' :: B) caps (fun _ c => some c) =
      some ((3, stripOne B) :: (2, A) :: caps) := by
  rw [ownerTail, matchRE_seq, matchRE]
  simp only [if_pos]
  have key := ownerTail_aux A hA0 hAdot B hB0 hBq [] caps
  rw [show some ((3, stripOne B) :: (2, A) :: caps) =
      some ((3, stripOne B) :: (2, [] ++ A) :: caps) from by simp]
  rw [← key]
  apply firstSome_congr
  intro pr _
  simp [pushCap]

/-! ## Whole-pattern evaluation on well-formed generic URLs -/

/-- The scheme part of a generic HTTPS remote: `https://` or `http://`. -/
def schemeL (secure : Bool) : List Char :=
  if secure then 'h' :: 't' :: 't' :: 'p' :: 's' :: ':' :: '/' :: '/' ::[]
  else 'h' :: 't' :: 't' :: 'p' :: ':' :: '/' :: '/' ::[]

/-- `https?` followed by `://` consumes either scheme spelling and leaves
the remainder to the rest of the pattern. -/
theorem scheme_step (secure : Bool) (rest : RE) (R : List Char) (caps : Caps)
    (k : List Char → Caps → Option Caps) :
    matchRE (.seq (.lit ('h' :: 't' :: 't' :: 'p' ::[]))
        (.seq (.opt (.lit ('s' ::[]))) (.seq (.lit (':' :: '/' :: '/' ::[])) rest)))
      (schemeL secure ++ R) caps k = matchRE rest R caps k := by
  cases secure
  case false =>
    rw [show schemeL false ++ R = ('h' :: 't' :: 't' :: 'p' ::[]) ++ (':' :: '/' :: '/' ::R) from rfl]
    rw [matchRE_seq, matchRE_lit_append, matchRE_seq]
    show matchRE (.opt (.lit ('s' ::[]))) _ _ _ = _
    rw [matchRE]
    have hfail : matchRE (.lit ('s' ::[])) (':' :: '/' :: '/' ::R) caps
        (fun cs2 caps2 => matchRE (.seq (.lit (':' :: '/' :: '/' ::[])) rest) cs2 caps2 k) =
        none := by
      rw [matchRE, if_neg]
      simp [List.isPrefixOf]
    rw [hfail]
    show matchRE (.seq (.lit (':' :: '/' :: '/' ::[])) rest) (':' :: '/' :: '/' ::R) caps k = _
    rw [show (':' :: '/' :: '/' ::R) = (':' :: '/' :: '/' ::[]) ++ R from rfl, matchRE_seq,
      matchRE_lit_append]
  case true =>
    rw [show schemeL true ++ R = ('h' :: 't' :: 't' :: 'p' ::[]) ++ ('s' :: ':' :: '/' :: '/' ::R) from rfl]
    rw [matchRE_seq, matchRE_lit_append, matchRE_seq]
    show matchRE (.opt (.lit ('s' ::[]))) _ _ _ = _
    rw [matchRE]
    have hinner : matchRE (.lit ('s' ::[])) ('s' :: ':' :: '/' :: '/' ::R) caps
        (fun cs2 caps2 => matchRE (.seq (.lit (':' :: '/' :: '/' ::[])) rest) cs2 caps2 k) =
        matchRE rest R caps k := by
      rw [show ('s' :: ':' :: '/' :: '/' ::R) = ('s' ::[]) ++ (':' :: '/' :: '/' ::R) from rfl,
        matchRE_lit_append]
      show matchRE (.seq (.lit (':' :: '/' :: '/' ::[])) rest) (':' :: '/' :: '/' ::R) caps k = _
      rw [show (':' :: '/' :: '/' ::R) = (':' :: '/' :: '/' ::[]) ++ R from rfl, matchRE_seq,
        matchRE_lit_append]
    rw [hinner]
    cases hres : matchRE rest R caps k with
    | some r => rfl
    | none =>
      show matchRE (.seq (.lit (':' :: '/' :: '/' ::[])) rest) ('s' :: ':' :: '/' :: '/' ::R) caps k = none
      rw [matchRE_seq, matchRE, if_neg]
      simp [List.isPrefixOf]

/-- A generic HTTPS remote with nested owner path `A` and final segment `B`. -/
def httpsUrlL (secure : Bool) (host A B : List Char) : List Char :=
  schemeL secure ++ (host ++ '/' :: (A ++ '/' :: B))

/-- An SCP-style SSH remote `git@host:A/B`. -/
def scpUrlL (host A B : List Char) : List Char :=
  'g' :: 'i' :: 't' :: '@' ::(host ++ ':' :: (A ++ '/' :: B))

/-- An `ssh://` remote `ssh://git@host/A/B`. -/
def sshUrlL (host A B : List Char) : List Char :=
  's' :: 's' :: 'h' :: ':' :: '/' :: '/' :: 'g' :: 'i' :: 't' :: '@' ::(host ++ '/' :: (A ++ '/' :: B))

theorem httpsRE_eval (secure : Bool) {host A B : List Char}
    (hh0 : host ≠ []) (hhost : ∀ c ∈ host, notSlash c = true)
    (hA0 : A ≠ []) (hAdot : ∀ c ∈ A, dotC c = true)
    (hB0 : B ≠ []) (hBq : ∀ c ∈ B, qC c = true) :
    matchRE httpsRE (httpsUrlL secure host A B) [] (fun _ c => some c) =
      some ((3, stripOne B) :: (2, A) :: (1, host) :: []) := by
  rw [show httpsUrlL secure host A B =
      schemeL secure ++ (host ++ '/' :: (A ++ '/' :: B)) from rfl]
  rw [show httpsRE = .seq (.lit ('h' :: 't' :: 't' :: 'p' ::[]))
      (.seq (.opt (.lit ('s' ::[])))
        (.seq (.lit (':' :: '/' :: '/' ::[]))
          (.seq (.plus (some 1) false notSlash)
            (.seq (.lit ('/' ::[])) ownerTail)))) from rfl]
  rw [scheme_step]
  rw [matchRE_seq]
  apply matchRE_plus_greedy hh0 hhost (by decide)
  show matchRE (.seq (.lit ('/' ::[])) ownerTail) ('/' :: (A ++ '/' :: B))
    ((1, host) :: []) (fun _ c => some c) = _
  rw [show ('/' :: (A ++ '/' :: B)) = ('/' ::[]) ++ (A ++ '/' :: B) from rfl,
    matchRE_seq, matchRE_lit_append]
  exact matchRE_ownerTail hA0 hAdot hB0 hBq _

theorem scpRE_eval {host A B : List Char}
    (hh0 : host ≠ []) (hhost : ∀ c ∈ host, notColon c = true)
    (hA0 : A ≠ []) (hAdot : ∀ c ∈ A, dotC c = true)
    (hB0 : B ≠ []) (hBq : ∀ c ∈ B, qC c = true) :
    matchRE scpRE (scpUrlL host A B) [] (fun _ c => some c) =
      some ((3, stripOne B) :: (2, A) :: (1, host) :: []) := by
  rw [show scpUrlL host A B =
      ('g' :: 'i' :: 't' :: '@' ::[]) ++ (host ++ ':' :: (A ++ '/' :: B)) from rfl]
  rw [show scpRE = .seq (.lit ('g' :: 'i' :: 't' :: '@' ::[]))
      (.seq (.plus (some 1) false notColon)
        (.seq (.lit (':' ::[])) ownerTail)) from rfl]
  rw [matchRE_seq, matchRE_lit_append, matchRE_seq]
  apply matchRE_plus_greedy hh0 hhost (by decide)
  show matchRE (.seq (.lit (':' ::[])) ownerTail) (':' :: (A ++ '/' :: B))
    ((1, host) :: []) (fun _ c => some c) = _
  rw [show (':' :: (A ++ '/' :: B)) = (':' ::[]) ++ (A ++ '/' :: B) from rfl,
    matchRE_seq, matchRE_lit_append]
  exact matchRE_ownerTail hA0 hAdot hB0 hBq _

theorem sshUrlRE_eval {host A B : List Char}
    (hh0 : host ≠ []) (hhost : ∀ c ∈ host, notSlash c = true)
    (hA0 : A ≠ []) (hAdot : ∀ c ∈ A, dotC c = true)
    (hB0 : B ≠ []) (hBq : ∀ c ∈ B, qC c = true) :
    matchRE sshUrlRE (sshUrlL host A B) [] (fun _ c => some c) =
      some ((3, stripOne B) :: (2, A) :: (1, host) :: []) := by
  rw [show sshUrlL host A B =
      ('s' :: 's' :: 'h' :: ':' :: '/' :: '/' :: 'g' :: 'i' :: 't' :: '@' ::[]) ++
        (host ++ '/' :: (A ++ '/' :: B)) from rfl]
  rw [show sshUrlRE = .seq (.lit ('s' :: 's' :: 'h' :: ':' :: '/' :: '/' :: 'g' :: 'i' :: 't' :: '@' ::[]))
      (.seq (.plus (some 1) false notSlash)
        (.seq (.lit ('/' ::[])) ownerTail)) from rfl]
  rw [matchRE_seq, matchRE_lit_append, matchRE_seq]
  apply matchRE_plus_greedy hh0 hhost (by decide)
  show matchRE (.seq (.lit ('/' ::[])) ownerTail) ('/' :: (A ++ '/' :: B))
    ((1, host) :: []) (fun _ c => some c) = _
  rw [show ('/' :: (A ++ '/' :: B)) = ('/' ::[]) ++ (A ++ '/' :: B) from rfl,
    matchRE_seq, matchRE_lit_append]
  exact matchRE_ownerTail hA0 hAdot hB0 hBq _

/-- A match at position 0 wins the unanchored leftmost search. -/
theorem searchRE_head {re : RE} {cs : List Char} {r : Caps}
    (h : matchRE re cs [] (fun _ c => some c) = some r) : searchRE re cs = some r := by
  rw [searchRE]
  cases cs with
  | nil =>
    rw [show List.tails ([] : List Char) = [[]] from by simp [List.tails]]
    exact firstSome_cons_some _ _ h
  | cons a as =>
    rw [show (a :: as).tails = (a :: as) :: as.tails from by simp [List.tails]]
    exact firstSome_cons_some _ _ h

/-! ## Trimming -/

theorem qC_jsW {c : Char} (h : qC c = true) : jsW c = false := by
  simp [qC] at h
  exact h.2

theorem jsTrim_id {l : List Char}
    (hhead : ∀ c, l.head? = some c → jsW c = false)
    (hlast : ∀ c, l.getLast? = some c → jsW c = false) : jsTrim l = l := by
  have h1 : l.dropWhile jsW = l := by
    cases l with
    | nil => rfl
    | cons c xs =>
      rw [List.dropWhile_cons, if_neg]
      rw [hhead c rfl]
      simp
  rw [jsTrim, h1]
  have h2 : l.reverse.dropWhile jsW = l.reverse := by
    cases hrev : l.reverse with
    | nil => rfl
    | cons c xs =>
      rw [List.dropWhile_cons, if_neg]
      have : l.getLast? = some c := by
        rw [← List.head?_reverse, hrev]
        rfl
      rw [hlast c this]
      simp
  rw [h2, List.reverse_reverse]

/-! ## Soundness: what any successful match must look like

A successful whole-pattern match commits to some split of the input; all
five source patterns end in the shared tail, so every success captures a
non-empty slash- and whitespace-free final segment and strips exactly one
`.git` from it. -/

theorem matchRE_opt_some {a : RE} {cs : List Char} {caps : Caps}
    {k : List Char → Caps → Option Caps} {r : Caps}
    (h : matchRE (.opt a) cs caps k = some r) :
    matchRE a cs caps k = some r ∨ k cs caps = some r := by
  rw [matchRE] at h
  cases hres : matchRE a cs caps k with
  | some v =>
    rw [hres] at h
    exact Or.inl h
  | none =>
    rw [hres] at h
    exact Or.inr h

theorem matchRE_plus_some {p : Char → Bool} {g : Option Nat} {lz : Bool}
    {cs : List Char} {caps : Caps} {k : List Char → Caps → Option Caps} {r : Caps}
    (h : matchRE (.plus g lz p) cs caps k = some r) :
    ∃ pre rest, cs = pre ++ rest ∧ pre ≠ [] ∧ (∀ c ∈ pre, p c = true) ∧
      k rest (pushCap g pre caps) = some r := by
  rw [matchRE] at h
  rcases firstSome_eq_some h with ⟨x, hx, hfx⟩
  have hmem : x ∈ runSplits p cs := by
    cases lz with
    | true => simpa using hx
    | false =>
      rw [if_neg (by simp)] at hx
      exact List.mem_reverse.mp hx
  rcases runSplits_mem hmem with ⟨h1, h2, h3⟩
  exact ⟨x.1, x.2, h1, h2, h3, hfx⟩

theorem matchRE_end_some {cs : List Char} {caps : Caps}
    {k : List Char → Caps → Option Caps} {r : Caps}
    (h : matchRE .tailEnd cs caps k = some r) :
    cs = [] ∧ k [] caps = some r := by
  cases cs with
  | nil =>
    rw [matchRE_end_nil] at h
    exact ⟨rfl, h⟩
  | cons c cs' =>
    rw [matchRE_end_cons] at h
    exact absurd h (by simp)

theorem mem_tails_ex : ∀ {cs t : List Char}, t ∈ cs.tails → ∃ j, cs = j ++ t := by
  intro cs
  induction cs with
  | nil =>
    intro t ht
    rw [show List.tails ([] : List Char) = [[]] from by simp [List.tails]] at ht
    rcases List.mem_singleton.mp ht with rfl
    exact ⟨[], rfl⟩
  | cons a as ih =>
    intro t ht
    rw [show (a :: as).tails = (a :: as) :: as.tails from by simp [List.tails]] at ht
    rcases List.mem_cons.mp ht with rfl | ht
    · exact ⟨[], rfl⟩
    · rcases ih ht with ⟨j, hj⟩
      exact ⟨a :: j, by rw [hj]; rfl⟩

theorem searchRE_some {re : RE} {cs : List Char} {r : Caps}
    (h : searchRE re cs = some r) :
    ∃ j t, cs = j ++ t ∧ matchRE re t [] (fun _ c => some c) = some r := by
  rw [searchRE] at h
  rcases firstSome_eq_some h with ⟨t, ht, hmt⟩
  rcases mem_tails_ex ht with ⟨j, hj⟩
  exact ⟨j, t, hj, hmt⟩

/-- Soundness of the suffix `([^x]+):?/{owner}/{tail}` of the generic
patterns: group 1 (host), then a literal, then the owner/tail suffix. -/
theorem afterHost_shape {p : Char → Bool} {M : List Char} {cs : List Char}
    {caps0 : Caps} {r : Caps}
    (h : matchRE (.seq (.plus (some 1) false p) (.seq (.lit M) ownerTail)) cs caps0
      (fun _ c => some c) = some r) :
    ∃ host ow s, r = (3, stripOne s) :: (2, ow) :: (1, host) :: caps0 ∧
      s ≠ [] ∧ (∀ c ∈ s, qC c = true) ∧ ow ≠ [] ∧ host ≠ [] ∧
      ∃ j, cs = j ++ s := by
  rw [matchRE_seq] at h
  obtain ⟨host, rest1, hcs, hh0, _, h⟩ := matchRE_plus_some h
  replace h : matchRE (.seq (.lit M) ownerTail) rest1 ((1, host) :: caps0)
      (fun _ c => some c) = some r := h
  rw [matchRE_seq] at h
  obtain ⟨rest2, hrest1, h⟩ := matchRE_lit_some h
  replace h : matchRE ownerTail rest2 ((1, host) :: caps0)
      (fun _ c => some c) = some r := h
  rw [ownerTail, matchRE_seq] at h
  obtain ⟨ow, rest3, hrest2, how0, _, h⟩ := matchRE_plus_some h
  replace h : matchRE (.seq (.lit ('/' :: [])) tailRE) rest3
      ((2, ow) :: (1, host) :: caps0) (fun _ c => some c) = some r := h
  rw [matchRE_seq] at h
  obtain ⟨rest4, hrest3, h⟩ := matchRE_lit_some h
  replace h : matchT rest4 ((2, ow) :: (1, host) :: caps0) = some r := h
  obtain ⟨hs0, hsq, hr⟩ := matchT_some h
  refine ⟨host, ow, rest4, hr, hs0, hsq, how0, hh0, ?_⟩
  refine ⟨host ++ M ++ ow ++ ('/' :: []), ?_⟩
  rw [hcs, hrest1, hrest2, hrest3]
  simp

/-- Soundness of the suffix shared by the two Azure patterns: two
slash-free groups separated by literals, then the tail. -/
theorem azureTail_shape {M1 M2 : List Char} {cs : List Char}
    {caps0 : Caps} {r : Caps}
    (h : matchRE (.seq (.plus (some 1) false notSlash)
        (.seq (.lit M1) (.seq (.plus (some 2) false notSlash)
          (.seq (.lit M2) tailRE)))) cs caps0
      (fun _ c => some c) = some r) :
    ∃ g1 g2 s, r = (3, stripOne s) :: (2, g2) :: (1, g1) :: caps0 ∧
      s ≠ [] ∧ (∀ c ∈ s, qC c = true) ∧ g2 ≠ [] ∧ g1 ≠ [] ∧
      ∃ j, cs = j ++ s := by
  rw [matchRE_seq] at h
  obtain ⟨g1, rest1, hcs, hg1, _, h⟩ := matchRE_plus_some h
  replace h : matchRE (.seq (.lit M1) (.seq (.plus (some 2) false notSlash)
      (.seq (.lit M2) tailRE))) rest1 ((1, g1) :: caps0)
      (fun _ c => some c) = some r := h
  rw [matchRE_seq] at h
  obtain ⟨rest2, hrest1, h⟩ := matchRE_lit_some h
  replace h : matchRE (.seq (.plus (some 2) false notSlash)
      (.seq (.lit M2) tailRE)) rest2 ((1, g1) :: caps0)
      (fun _ c => some c) = some r := h
  rw [matchRE_seq] at h
  obtain ⟨g2, rest3, hrest2, hg2, _, h⟩ := matchRE_plus_some h
  replace h : matchRE (.seq (.lit M2) tailRE) rest3
      ((2, g2) :: (1, g1) :: caps0) (fun _ c => some c) = some r := h
  rw [matchRE_seq] at h
  obtain ⟨rest4, hrest3, h⟩ := matchRE_lit_some h
  replace h : matchT rest4 ((2, g2) :: (1, g1) :: caps0) = some r := h
  obtain ⟨hs0, hsq, hr⟩ := matchT_some h
  refine ⟨g1, g2, rest4, hr, hs0, hsq, hg2, hg1, ?_⟩
  refine ⟨g1 ++ M1 ++ g2 ++ M2, ?_⟩
  rw [hcs, hrest1, hrest2, hrest3]
  simp

/-- Peeling `https?://` (or any literal-opt-literal head) off a
successful match. -/
theorem scheme_shape {L : List Char} {rest : RE} {cs : List Char}
    {caps0 : Caps} {r : Caps}
    (h : matchRE (.seq (.lit ('h' :: 't' :: 't' :: 'p' ::[]))
        (.seq (.opt (.lit ('s' ::[]))) (.seq (.lit L) rest))) cs caps0
      (fun _ c => some c) = some r) :
    ∃ t, matchRE rest t caps0 (fun _ c => some c) = some r ∧ ∃ j, cs = j ++ t := by
  rw [matchRE_seq] at h
  obtain ⟨rest1, hcs, h⟩ := matchRE_lit_some h
  replace h : matchRE (.seq (.opt (.lit ('s' ::[]))) (.seq (.lit L) rest)) rest1 caps0
      (fun _ c => some c) = some r := h
  rw [matchRE_seq] at h
  rcases matchRE_opt_some h with h | h
  · obtain ⟨rest2, hrest1, h⟩ := matchRE_lit_some h
    replace h : matchRE (.seq (.lit L) rest) rest2 caps0
        (fun _ c => some c) = some r := h
    rw [matchRE_seq] at h
    obtain ⟨rest3, hrest2, h⟩ := matchRE_lit_some h
    refine ⟨rest3, h, ('h' :: 't' :: 't' :: 'p' ::[]) ++ ('s' ::[]) ++ L, ?_⟩
    rw [hcs, hrest1, hrest2]
    simp
  · replace h : matchRE (.seq (.lit L) rest) rest1 caps0
        (fun _ c => some c) = some r := h
    rw [matchRE_seq] at h
    obtain ⟨rest3, hrest2, h⟩ := matchRE_lit_some h
    refine ⟨rest3, h, ('h' :: 't' :: 't' :: 'p' ::[]) ++ L, ?_⟩
    rw [hcs, hrest2]
    simp

/-- Peeling a plain literal head. -/
theorem lit_head_shape {L : List Char} {rest : RE} {cs : List Char}
    {caps0 : Caps} {r : Caps}
    (h : matchRE (.seq (.lit L) rest) cs caps0 (fun _ c => some c) = some r) :
    ∃ t, matchRE rest t caps0 (fun _ c => some c) = some r ∧ ∃ j, cs = j ++ t := by
  rw [matchRE_seq] at h
  obtain ⟨rest1, hcs, h⟩ := matchRE_lit_some h
  exact ⟨rest1, h, L, hcs⟩

/-- Every successful parse ends in a non-empty slash/whitespace-free
final segment `s` at the very end of the trimmed input; the `repo` field
is `s` with one `.git` stripped, and `owner` is never empty. -/
theorem parseTrimmed_sound {t : List Char} {info : RemoteUrlInfo}
    (h : parseTrimmed t = some info) :
    ∃ s, s ≠ [] ∧ (∀ c ∈ s, qC c = true) ∧ info.repo.data = stripOne s ∧
      (∃ j, t = j ++ s) ∧ info.owner ≠ "" := by
  rw [parseTrimmed] at h
  cases h1 : searchRE azureHttpsRE t with
  | some caps =>
    simp only [h1] at h
    obtain ⟨j1, t1, ht, hm⟩ := searchRE_some h1
    obtain ⟨t2, hm2, j2, ht2⟩ := scheme_shape hm
    obtain ⟨g1, g2, s, hcaps, hs0, hsq, hg2, hg1, j3, ht3⟩ := azureTail_shape hm2
    rw [Option.some_inj] at h
    subst h
    refine ⟨s, hs0, hsq, ?_, ⟨j1 ++ j2 ++ j3, ?_⟩, ?_⟩
    · simp [hcaps, grp, List.lookup]
    · rw [ht, ht2, ht3]
      simp
    · intro hcon
      have hd := congrArg String.data hcon
      simp [hcaps, grp, List.lookup] at hd
  | none =>
  simp only [h1] at h
  cases h2 : searchRE azureSshRE t with
  | some caps =>
    simp only [h2] at h
    obtain ⟨j1, t1, ht, hm⟩ := searchRE_some h2
    obtain ⟨t2, hm2, j2, ht2⟩ := lit_head_shape hm
    obtain ⟨g1, g2, s, hcaps, hs0, hsq, hg2, hg1, j3, ht3⟩ := azureTail_shape hm2
    rw [Option.some_inj] at h
    subst h
    refine ⟨s, hs0, hsq, ?_, ⟨j1 ++ j2 ++ j3, ?_⟩, ?_⟩
    · simp [hcaps, grp, List.lookup]
    · rw [ht, ht2, ht3]
      simp
    · intro hcon
      have hd := congrArg String.data hcon
      simp [hcaps, grp, List.lookup] at hd
  | none =>
  simp only [h2] at h
  cases h3 : searchRE httpsRE t with
  | some caps =>
    simp only [h3] at h
    obtain ⟨j1, t1, ht, hm⟩ := searchRE_some h3
    obtain ⟨t2, hm2, j2, ht2⟩ := scheme_shape hm
    obtain ⟨host, ow, s, hcaps, hs0, hsq, how, hh, j3, ht3⟩ := afterHost_shape hm2
    rw [Option.some_inj] at h
    subst h
    refine ⟨s, hs0, hsq, ?_, ⟨j1 ++ j2 ++ j3, ?_⟩, ?_⟩
    · simp [hcaps, grp, List.lookup]
    · rw [ht, ht2, ht3]
      simp
    · intro hcon
      have hd := congrArg String.data hcon
      simp [hcaps, grp, List.lookup] at hd
      exact how hd
  | none =>
  simp only [h3] at h
  cases h4 : searchRE scpRE t with
  | some caps =>
    simp only [h4] at h
    obtain ⟨j1, t1, ht, hm⟩ := searchRE_some h4
    obtain ⟨t2, hm2, j2, ht2⟩ := lit_head_shape hm
    obtain ⟨host, ow, s, hcaps, hs0, hsq, how, hh, j3, ht3⟩ := afterHost_shape hm2
    rw [Option.some_inj] at h
    subst h
    refine ⟨s, hs0, hsq, ?_, ⟨j1 ++ j2 ++ j3, ?_⟩, ?_⟩
    · simp [hcaps, grp, List.lookup]
    · rw [ht, ht2, ht3]
      simp
    · intro hcon
      have hd := congrArg String.data hcon
      simp [hcaps, grp, List.lookup] at hd
      exact how hd
  | none =>
  simp only [h4] at h
  cases h5 : searchRE sshUrlRE t with
  | some caps =>
    simp only [h5] at h
    obtain ⟨j1, t1, ht, hm⟩ := searchRE_some h5
    obtain ⟨t2, hm2, j2, ht2⟩ := lit_head_shape hm
    obtain ⟨host, ow, s, hcaps, hs0, hsq, how, hh, j3, ht3⟩ := afterHost_shape hm2
    rw [Option.some_inj] at h
    subst h
    refine ⟨s, hs0, hsq, ?_, ⟨j1 ++ j2 ++ j3, ?_⟩, ?_⟩
    · simp [hcaps, grp, List.lookup]
    · rw [ht, ht2, ht3]
      simp
    · intro hcon
      have hd := congrArg String.data hcon
      simp [hcaps, grp, List.lookup] at hd
      exact how hd
  | none =>
    simp only [h5] at h
    exact absurd h (by simp)

/-! ## Trim padding and trailing slashes -/

theorem dropWhile_append_all {p : Char → Bool} {a : List Char}
    (ha : ∀ c ∈ a, p c = true) (x : List Char) :
    (a ++ x).dropWhile p = x.dropWhile p := by
  induction a with
  | nil => rfl
  | cons c a' ih =>
    rw [List.cons_append, List.dropWhile_cons,
      if_pos (ha c (List.mem_cons_self c a'))]
    exact ih (fun d hd => ha d (List.mem_cons_of_mem c hd))

theorem dropWhile_append_left {p : Char → Bool} :
    ∀ {y : List Char}, y.dropWhile p ≠ [] →
      ∀ (b : List Char), (y ++ b).dropWhile p = y.dropWhile p ++ b := by
  intro y
  induction y with
  | nil => intro h; exact absurd rfl h
  | cons c y' ih =>
    intro h b
    rw [List.cons_append, List.dropWhile_cons]
    by_cases hc : p c = true
    · rw [if_pos hc]
      rw [List.dropWhile_cons, if_pos hc] at h ⊢
      exact ih h b
    · rw [if_neg hc]
      rw [List.dropWhile_cons, if_neg hc]
      simp

/-- Surrounding a string with whitespace does not change its trim. -/
theorem jsTrim_pad {a b : List Char} (u : List Char)
    (ha : ∀ c ∈ a, jsW c = true) (hb : ∀ c ∈ b, jsW c = true) :
    jsTrim (a ++ u ++ b) = jsTrim u := by
  rw [List.append_assoc]
  have h1 : jsTrim (a ++ (u ++ b)) = jsTrim (u ++ b) := by
    rw [jsTrim, jsTrim, dropWhile_append_all ha]
  rw [h1]
  cases hdu : u.dropWhile jsW with
  | nil =>
    have hu : ∀ c ∈ u, jsW c = true := List.dropWhile_eq_nil_iff.mp hdu
    have hub : (u ++ b).dropWhile jsW = [] := by
      rw [dropWhile_append_all hu, List.dropWhile_eq_nil_iff]
      exact fun c hc => hb c hc
    rw [jsTrim, jsTrim, hdu, hub]
  | cons d w =>
    have hub : (u ++ b).dropWhile jsW = (d :: w) ++ b := by
      rw [dropWhile_append_left (by rw [hdu]; simp) b, hdu]
    rw [jsTrim, jsTrim, hub, hdu, List.reverse_append]
    rw [dropWhile_append_all (fun c hc => hb c (List.mem_reverse.mp hc))]

/-- The trim of anything ending in `/` still ends in `/`. -/
theorem jsTrim_slash (x : List Char) :
    ∃ y, jsTrim (x ++ ('/' :: [])) = y ++ ('/' :: []) := by
  have hslash : jsW '/' = false := by decide
  have step1 : ∃ z, (x ++ ('/' :: [])).dropWhile jsW = z ++ ('/' :: []) := by
    cases hdx : x.dropWhile jsW with
    | nil =>
      have hx : ∀ c ∈ x, jsW c = true := List.dropWhile_eq_nil_iff.mp hdx
      refine ⟨[], ?_⟩
      rw [dropWhile_append_all hx, List.dropWhile_cons, if_neg (by simp [hslash])]
      rfl
    | cons d w =>
      refine ⟨d :: w, ?_⟩
      rw [dropWhile_append_left (by rw [hdx]; simp), hdx]
  rcases step1 with ⟨z, hz⟩
  refine ⟨z, ?_⟩
  rw [jsTrim, hz, List.reverse_append]
  rw [show (('/' :: []) : List Char).reverse = '/' :: [] from rfl]
  rw [show ('/' :: []) ++ z.reverse = '/' :: z.reverse from rfl]
  rw [List.dropWhile_cons, if_neg (by simp [hslash])]
  simp

/-! ## Substring preservation under character maps -/

theorem isPrefixOf_map (f : Char → Char) :
    ∀ {n h : List Char}, n.isPrefixOf h = true →
      (n.map f).isPrefixOf (h.map f) = true := by
  intro n
  induction n with
  | nil => intro h _; simp [List.isPrefixOf]
  | cons a n' ih =>
    intro h hp
    cases h with
    | nil => simp [List.isPrefixOf] at hp
    | cons b h' =>
      simp only [List.isPrefixOf, Bool.and_eq_true, beq_iff_eq] at hp
      rcases hp with ⟨rfl, hp⟩
      simp [List.isPrefixOf, ih hp]

theorem containsSeq_map (f : Char → Char) {n : List Char} :
    ∀ {h : List Char}, containsSeq n h = true →
      containsSeq (n.map f) (h.map f) = true := by
  intro h
  induction h with
  | nil =>
    intro hc
    rw [containsSeq] at hc
    rw [List.map_nil, containsSeq]
    exact isPrefixOf_map f hc
  | cons c rest ih =>
    intro hc
    rw [containsSeq, Bool.or_eq_true] at hc
    rw [List.map_cons, containsSeq, Bool.or_eq_true]
    rcases hc with hc | hc
    · left
      have := isPrefixOf_map f hc
      simpa using this
    · right
      exact ih hc

/-! ## Claim theorems -/

/-- C1: `parseRemoteUrl` reproduces the spec's canonical input table:
`https://gitlab.com/a/b/c/repo.git` parses to gitlab/gitlab.com/a\/b\/c/repo,
`git@ssh.dev.azure.com:v3/org/project/repo` parses to
azure-devops/dev.azure.com/org\/project/repo, and `not-a-url` and the empty
string both yield an absent result. -/
theorem claim1_canonical_table :
    parseRemoteUrl "https://gitlab.com/a/b/c/repo.git" =
      some { provider := .gitlab, host := "gitlab.com", owner := "a/b/c", repo := "repo" } ∧
    parseRemoteUrl "git@ssh.dev.azure.com:v3/org/project/repo" =
      some { provider := .azureDevops, host := "dev.azure.com",
             owner := "org/project", repo := "repo" } ∧
    parseRemoteUrl "not-a-url" = none ∧
    parseRemoteUrl "" = none := by
  refine ⟨?_, ?_, ?_, ?_⟩ <;> decide

/-- C3: any input containing both `dev.azure.com` and `github.com` as
substrings classifies as azure-devops, never github — the Azure check
precedes the GitHub check in the cascade. -/
theorem claim3_azure_precedes_github {url : String}
    (h1 : containsSeq azL url.data = true)
    (_h2 : containsSeq ghL url.data = true) :
    detectProvider url = .azureDevops := by
  have hmap := containsSeq_map lowC h1
  rw [show azL.map lowC = azL from by decide] at hmap
  simp [detectProvider, detectProviderL, hmap]

/-- C3 witness: a concrete contrived URL containing both substrings. -/
theorem claim3_witness :
    detectProvider "https://dev.azure.com/x/github.com" = .azureDevops :=
  claim3_azure_precedes_github (by decide) (by decide)

/-- C6 counterexample: the cascade tests substrings of the whole URL,
not of the hostname — a URL whose hostname is `innocent-host.example`
but whose path contains `github.com` is classified github, and
`parseRemoteUrl` exhibits the hostname in the `host` field.  The claim
says such a URL must classify as unknown. -/
theorem claim6_cex :
    parseRemoteUrl "https://innocent-host.example/github.com/repo" =
      some { provider := .github, host := "innocent-host.example",
             owner := "github.com", repo := "repo" } ∧
    detectProvider "https://innocent-host.example/github.com/repo" = .github := by
  refine ⟨?_, ?_⟩ <;> decide

/-- C6 amended: `detectProvider` classifies by substrings of the whole
lowercased URL (not the hostname): it returns github only when the
lowercased URL contains `github.com` somewhere, and a URL containing
none of the listed needles anywhere is classified unknown. -/
theorem claim6_amended :
    (∀ url : String, detectProvider url = .github →
      containsSeq ghL (url.data.map lowC) = true) ∧
    (∀ url : String,
      containsSeq azL (url.data.map lowC) = false →
      containsSeq sshAzL (url.data.map lowC) = false →
      containsSeq vsL (url.data.map lowC) = false →
      containsSeq ghL (url.data.map lowC) = false →
      containsSeq glL (url.data.map lowC) = false →
      containsSeq bbL (url.data.map lowC) = false →
      containsSeq glHeurL (url.data.map lowC) = false →
      containsSeq geHeurL (url.data.map lowC) = false →
      containsSeq fjHeurL (url.data.map lowC) = false →
      detectProvider url = .unknown) := by
  constructor
  · intro url h
    by_contra hc
    have hfalse : containsSeq ghL (url.data.map lowC) = false := by
      simpa using hc
    simp only [detectProvider, detectProviderL] at h
    split_ifs at h
  · intro url h1 h2 h3 h4 h5 h6 h7 h8 h9
    simp only [detectProvider, detectProviderL]
    rw [if_neg (by simp [h1, h2, h3]), if_neg (by simp [h4]),
      if_neg (by simp [h5]), if_neg (by simp [h6]), if_neg (by simp [h7]),
      if_neg (by simp [h8]), if_neg (by simp [h9])]

/-- C6 amended witness: concrete instances of both conjuncts. -/
theorem claim6_amended_witness :
    containsSeq ghL (("git@github.com:user/repo.git" : String).data.map lowC) = true ∧
    detectProvider "https://example.com/user/repo" = .unknown :=
  ⟨claim6_amended.1 "git@github.com:user/repo.git" (by decide),
   claim6_amended.2 "https://example.com/user/repo" (by decide) (by decide)
     (by decide) (by decide) (by decide) (by decide) (by decide) (by decide)
     (by decide)⟩

/-- C7: every successful parse is fully populated — `owner` and `repo`
are non-empty in all five branches. -/
theorem claim7_nonempty {u : String} {info : RemoteUrlInfo}
    (h : parseRemoteUrl u = some info) :
    info.owner ≠ "" ∧ info.repo ≠ "" := by
  obtain ⟨s, hs0, _, hrepo, _, howner⟩ := parseTrimmed_sound h
  refine ⟨howner, ?_⟩
  intro hcon
  rw [hcon] at hrepo
  exact stripOne_ne_nil hs0 hrepo.symm

/-- C7 witness: a concrete successful parse with non-empty fields. -/
theorem claim7_witness :
    ({ provider := .github, host := "github.com", owner := "user",
       repo := "repo" } : RemoteUrlInfo).owner ≠ "" ∧
    ({ provider := .github, host := "github.com", owner := "user",
       repo := "repo" } : RemoteUrlInfo).repo ≠ "" :=
  claim7_nonempty (u := "https://github.com/user/repo.git") (by decide)

/-- C8: viewPR and viewIssue reject a number that is not a positive
integer before attempting any tier: the result is absent and the
attempted-tier trace is empty (no subprocess, no network request). -/
theorem claim8_input_validation {env : GiteaEnv} {n : ℚ} {o r : Option String}
    (h : ¬(n.den = 1) ∨ n < 1) :
    viewPR env n o r = (none, []) ∧ viewIssue env n o r = (none, []) := by
  have hcond : (!isIntegerQ n || decide (n < 1)) = true := by
    rcases h with h | h
    · have hi : isIntegerQ n = false := by
        simp [isIntegerQ]
        exact h
      simp [hi]
    · simp [h]
  constructor
  · rw [viewPR, if_pos hcond]
  · rw [viewIssue, if_pos hcond]

/-- An environment whose oracles all fail, for witnesses. -/
def envW : GiteaEnv :=
  { giteaUrl := none, giteaToken := none,
    teaPR := fun _ => none, teaIssue := fun _ => none,
    restPR := fun _ _ _ => none, restIssue := fun _ _ _ => none }

/-- C8 witness: `viewPR 0` and `viewIssue 0` reject with an empty trace. -/
theorem claim8_witness :
    viewPR envW 0 none none = (none, []) ∧ viewIssue envW 0 none none = (none, []) :=
  claim8_input_validation (Or.inr (by norm_num))

/-- C9: with the CLI tier failing, a falsy base URL or missing owner or
repo skips the REST tier (absent result without a REST attempt); when
both tiers fail the result is likewise absent.  The embedding is a total
function, so no exception crosses the adapter boundary. -/
theorem claim9_rest_containment {env : GiteaEnv} {n : ℚ} {o r : Option String}
    (hpr : env.teaPR n = none) (hiss : env.teaIssue n = none) :
    ((optTruthy env.giteaUrl = false ∨ optTruthy o = false ∨ optTruthy r = false) →
      (viewPR env n o r).1 = none ∧ Tier.restCall ∉ (viewPR env n o r).2 ∧
      (viewIssue env n o r).1 = none ∧ Tier.restCall ∉ (viewIssue env n o r).2) ∧
    (env.restPR n o r = none → (viewPR env n o r).1 = none) ∧
    (env.restIssue n o r = none → (viewIssue env n o r).1 = none) := by
  by_cases hguard : (!isIntegerQ n || decide (n < 1)) = true
  · rw [viewPR, viewIssue, if_pos hguard, if_pos hguard]
    refine ⟨fun _ => ⟨rfl, by simp, rfl, by simp⟩, fun _ => rfl, fun _ => rfl⟩
  · rw [viewPR, viewIssue, if_neg hguard, if_neg hguard, hpr, hiss]
    refine ⟨?_, ?_, ?_⟩
    · intro hmiss
      have hcond : (!optTruthy env.giteaUrl || !optTruthy o || !optTruthy r) = true := by
        rcases hmiss with h | h | h <;> simp [h]
      rw [viewPRviaRest, viewIssueviaRest, if_pos hcond, if_pos hcond]
      refine ⟨rfl, by simp, rfl, by simp⟩
    · intro hrest
      by_cases hcond : (!optTruthy env.giteaUrl || !optTruthy o || !optTruthy r) = true
      · rw [viewPRviaRest, if_pos hcond]
      · rw [viewPRviaRest, if_neg hcond]
        simpa using hrest
    · intro hrest
      by_cases hcond : (!optTruthy env.giteaUrl || !optTruthy o || !optTruthy r) = true
      · rw [viewIssueviaRest, if_pos hcond]
      · rw [viewIssueviaRest, if_neg hcond]
        simpa using hrest

/-- C9 witness: both tiers fail on a concrete environment. -/
theorem claim9_witness :
    ((optTruthy envW.giteaUrl = false ∨ optTruthy (none : Option String) = false ∨
        optTruthy (none : Option String) = false) →
      (viewPR envW 5 none none).1 = none ∧
      Tier.restCall ∉ (viewPR envW 5 none none).2 ∧
      (viewIssue envW 5 none none).1 = none ∧
      Tier.restCall ∉ (viewIssue envW 5 none none).2) ∧
    (envW.restPR 5 none none = none → (viewPR envW 5 none none).1 = none) ∧
    (envW.restIssue 5 none none = none → (viewIssue envW 5 none none).1 = none) :=
  claim9_rest_containment rfl rfl

/-- C10: the registry resolves all six registered names, yields an
absent value for unknown, gives gitea and forgejo independent instances
of the same adapter class, and reuses the already-built map on repeated
calls without constructing new adapters. -/
theorem claim10_registry :
    ((getProvider none .github).1.isSome = true ∧
     (getProvider none .gitlab).1.isSome = true ∧
     (getProvider none .bitbucket).1.isSome = true ∧
     (getProvider none .azureDevops).1.isSome = true ∧
     (getProvider none .gitea).1.isSome = true ∧
     (getProvider none .forgejo).1.isSome = true) ∧
    (getProvider none .unknown).1 = none ∧
    (∃ g f : GitProviderInst,
      (getProvider none .gitea).1 = some g ∧
      (getProvider none .forgejo).1 = some f ∧
      g.cls = f.cls ∧ g ≠ f) ∧
    (∀ reg : Registry, initRegistry (some reg) = (reg, some reg)) := by
  refine ⟨⟨?_, ?_, ?_, ?_, ?_, ?_⟩, ?_, ⟨⟨.giteaP, 4⟩, ⟨.giteaP, 5⟩, ?_, ?_, ?_, ?_⟩,
    fun reg => rfl⟩ <;> decide

/-- C10 witness: the reuse equation at the concrete registry. -/
theorem claim10_witness :
    initRegistry (some registryEntries) = (registryEntries, some registryEntries) :=
  claim10_registry.2.2.2 registryEntries

/-- C4 counterexample: a final segment ending in `.git.git` keeps one
`.git` in `repo` — the pattern strips exactly one suffix, so `repo` can
end in `.git`, contradicting the claim that it never does. -/
theorem claim4_cex :
    parseRemoteUrl "https://github.com/user/repo.git.git" =
      some { provider := .github, host := "github.com", owner := "user",
             repo := "repo.git" } ∧
    gitL.isSuffixOf ("repo.git" : String).data = true := by
  refine ⟨?_, ?_⟩ <;> decide

/-- C4 amended: `repo` never ends in `.git` unless the trimmed input
itself ends in `.git.git` (only one trailing `.git` is stripped) or the
matched final segment is literally `.git` (stripping would empty it). -/
theorem claim4_amended {u : String} {info : RemoteUrlInfo}
    (h : parseRemoteUrl u = some info)
    (hend : gitL.isSuffixOf info.repo.data = true) :
    (gitL ++ gitL).isSuffixOf (jsTrim u.data) = true ∨ info.repo = ⟨gitL⟩ := by
  obtain ⟨s, _, _, hrepo, ⟨j, hj⟩, _⟩ := parseTrimmed_sound h
  rw [hrepo] at hend
  rcases stripOne_endsgit hend with hgg | hgl
  · left
    rcases sfx_ex hgg with ⟨p, hp⟩
    rw [hj, hp]
    rw [show j ++ (p ++ (gitL ++ gitL)) = (j ++ p) ++ (gitL ++ gitL) from by simp]
    exact sfx_self_append _ _
  · right
    exact String.ext (hrepo.trans hgl)

/-- C4 amended witness: at the `.git.git` input the left disjunct holds. -/
theorem claim4_amended_witness :
    (gitL ++ gitL).isSuffixOf
        (jsTrim ("https://github.com/user/repo.git.git" : String).data) = true ∨
      ({ provider := .github, host := "github.com", owner := "user",
         repo := "repo.git" } : RemoteUrlInfo).repo = ⟨gitL⟩ :=
  claim4_amended (by decide) (by decide)

/-- C5 counterexample: appending a trailing slash does not preserve the
result — the parse of `https://github.com/user/repo` succeeds while the
same URL with a trailing slash yields an absent result. -/
theorem claim5_cex :
    parseRemoteUrl "https://github.com/user/repo" =
      some { provider := .github, host := "github.com", owner := "user",
             repo := "repo" } ∧
    parseRemoteUrl "https://github.com/user/repo/" = none := by
  refine ⟨?_, ?_⟩ <;> decide

/-- C5 amended: surrounding whitespace (spaces, tabs, newlines — any
number of them) never changes the parse result, and the canonical padded
example parses as stated; but appending a trailing slash always makes
the parse absent instead of preserving the result. -/
theorem claim5_amended :
    (∀ (a b : List Char) (u : String), (∀ c ∈ a, jsW c = true) →
      (∀ c ∈ b, jsW c = true) →
      parseRemoteUrl ⟨a ++ u.data ++ b⟩ = parseRemoteUrl u) ∧
    (∀ u : String, parseRemoteUrl ⟨u.data ++ ('/' :: [])⟩ = none) ∧
    parseRemoteUrl "  https://github.com/user/repo.git  " =
      some { provider := .github, host := "github.com", owner := "user",
             repo := "repo" } := by
  refine ⟨?_, ?_, ?_⟩
  · intro a b u ha hb
    rw [parseRemoteUrl, parseRemoteUrl]
    rw [show (⟨a ++ u.data ++ b⟩ : String).data = a ++ u.data ++ b from rfl]
    rw [jsTrim_pad u.data ha hb]
  · intro u
    by_contra hc
    rcases Option.ne_none_iff_exists'.mp hc with ⟨info, hinfo⟩
    replace hinfo : parseTrimmed (jsTrim (u.data ++ ('/' :: []))) = some info := hinfo
    obtain ⟨s, hs0, hsq, _, ⟨j, hj⟩, _⟩ := parseTrimmed_sound hinfo
    rcases jsTrim_slash u.data with ⟨y, hy⟩
    have h1 : (j ++ s).getLast? = some '/' := by
      rw [← hj, hy, List.getLast?_append_of_ne_nil y (by simp)]
      rfl
    rw [List.getLast?_append_of_ne_nil j hs0] at h1
    have hmem : '/' ∈ s := List.mem_of_mem_getLast? h1
    have := hsq '/' hmem
    simp [qC] at this
  · decide

/-- Slash-join a non-empty list of owner segments, as the spec's
`owner-path` grammar does. -/
def joinSegs : List (List Char) → List Char
  | [] => []
  | s :: [] => s
  | s :: rest => s ++ '/' :: joinSegs rest

theorem joinSegs_ne_nil : ∀ {segs : List (List Char)}, segs ≠ [] →
    (∀ s ∈ segs, s ≠ []) → joinSegs segs ≠ []
  | [], h, _ => absurd rfl h
  | s :: [], _, hs => by
    rw [show joinSegs (s :: []) = s from rfl]
    exact hs s (by simp)
  | _ :: _ :: _, _, _ => by
    rw [show joinSegs (_ :: _ :: _) = _ ++ '/' :: joinSegs (_ :: _) from rfl]
    simp

theorem joinSegs_dot : ∀ (segs : List (List Char)),
    (∀ s ∈ segs, ∀ c ∈ s, dotC c = true) → ∀ c ∈ joinSegs segs, dotC c = true
  | [], _, c, hc => by simp [joinSegs] at hc
  | s :: [], h, c, hc => by
    rw [show joinSegs (s :: []) = s from rfl] at hc
    exact h s (by simp) c hc
  | s :: s2 :: rest, h, c, hc => by
    rw [show joinSegs (s :: s2 :: rest) = s ++ '/' :: joinSegs (s2 :: rest) from rfl] at hc
    rcases List.mem_append.mp hc with hc | hc
    · exact h s (by simp) c hc
    · rcases List.mem_cons.mp hc with rfl | hc
      · decide
      · exact joinSegs_dot (s2 :: rest)
          (fun t ht => h t (List.mem_cons_of_mem s ht)) c hc

/-- C2: for every generic HTTPS, SCP-style SSH, or `ssh://` URL whose
path is `k ≥ 1` owner segments followed by a final repository segment
(optionally suffixed `.git`), the parse succeeds with `owner` the
slash-joined segments — whatever the nesting depth — and `repo` the
final segment.  The Azure patterns come first in the cascade, so each
branch assumes the earlier patterns do not match the URL (the earlier
patterns contain fixed marker literals absent from such generic URLs). -/
theorem claim2_nesting_generality (secure withGit : Bool) (host : List Char)
    (segs : List (List Char)) (r : List Char)
    (hh0 : host ≠ [])
    (hhost : ∀ c ∈ host, c ≠ '/' ∧ c ≠ ':')
    (hsegs : segs ≠ [])
    (hseg : ∀ s ∈ segs, s ≠ [] ∧ ∀ c ∈ s, c ≠ '/' ∧ dotC c = true)
    (hr0 : r ≠ []) (hrq : ∀ c ∈ r, qC c = true)
    (hrgit : gitL.isSuffixOf r = false) :
    (searchRE azureHttpsRE (httpsUrlL secure host (joinSegs segs)
        (r ++ (if withGit then gitL else []))) = none →
      searchRE azureSshRE (httpsUrlL secure host (joinSegs segs)
        (r ++ (if withGit then gitL else []))) = none →
      ∃ p, parseRemoteUrl ⟨httpsUrlL secure host (joinSegs segs)
          (r ++ (if withGit then gitL else []))⟩ =
        some { provider := p, host := ⟨host⟩,
               owner := ⟨joinSegs segs⟩, repo := ⟨r⟩ }) ∧
    (searchRE azureHttpsRE (scpUrlL host (joinSegs segs)
        (r ++ (if withGit then gitL else []))) = none →
      searchRE azureSshRE (scpUrlL host (joinSegs segs)
        (r ++ (if withGit then gitL else []))) = none →
      searchRE httpsRE (scpUrlL host (joinSegs segs)
        (r ++ (if withGit then gitL else []))) = none →
      ∃ p, parseRemoteUrl ⟨scpUrlL host (joinSegs segs)
          (r ++ (if withGit then gitL else []))⟩ =
        some { provider := p, host := ⟨host⟩,
               owner := ⟨joinSegs segs⟩, repo := ⟨r⟩ }) ∧
    (searchRE azureHttpsRE (sshUrlL host (joinSegs segs)
        (r ++ (if withGit then gitL else []))) = none →
      searchRE azureSshRE (sshUrlL host (joinSegs segs)
        (r ++ (if withGit then gitL else []))) = none →
      searchRE httpsRE (sshUrlL host (joinSegs segs)
        (r ++ (if withGit then gitL else []))) = none →
      searchRE scpRE (sshUrlL host (joinSegs segs)
        (r ++ (if withGit then gitL else []))) = none →
      ∃ p, parseRemoteUrl ⟨sshUrlL host (joinSegs segs)
          (r ++ (if withGit then gitL else []))⟩ =
        some { provider := p, host := ⟨host⟩,
               owner := ⟨joinSegs segs⟩, repo := ⟨r⟩ }) := by
  set A := joinSegs segs with hAdef
  set B := r ++ (if withGit then gitL else []) with hBdef
  have hA0 : A ≠ [] := joinSegs_ne_nil hsegs (fun s hs => (hseg s hs).1)
  have hAdot : ∀ c ∈ A, dotC c = true :=
    joinSegs_dot segs (fun s hs c hc => ((hseg s hs).2 c hc).2)
  have hB0 : B ≠ [] := by
    rw [hBdef]
    cases withGit <;> simp [hr0]
  have hBq : ∀ c ∈ B, qC c = true := by
    intro c hc
    rw [hBdef] at hc
    rcases List.mem_append.mp hc with hc | hc
    · exact hrq c hc
    · cases withGit
      · simp at hc
      · exact gitL_all_qC c (by simpa using hc)
  have hstrip : stripOne B = r := by
    rw [hBdef]
    cases withGit
    · show stripOne (r ++ []) = r
      rw [List.append_nil]
      exact stripOne_short (fun hc => by
        rw [hrgit] at hc
        exact absurd hc.2 (by simp))
    · show stripOne (r ++ gitL) = r
      exact stripOne_of_append hr0
  have hhostS : ∀ c ∈ host, notSlash c = true := by
    intro c hc
    simp [notSlash]
    exact (hhost c hc).1
  have hhostC : ∀ c ∈ host, notColon c = true := by
    intro c hc
    simp [notColon]
    exact (hhost c hc).2
  have hlastB : ∀ c, B.getLast? = some c → jsW c = false := by
    intro c hc
    exact qC_jsW (hBq c (List.mem_of_mem_getLast? hc))
  refine ⟨?_, ?_, ?_⟩
  · intro haz1 haz2
    have heval := httpsRE_eval secure hh0 hhostS hA0 hAdot hB0 hBq
    have hsearch := searchRE_head heval
    have hurl : httpsUrlL secure host A B =
        (schemeL secure ++ host ++ ('/' :: A) ++ ('/' :: [])) ++ B := by
      rw [httpsUrlL]
      simp
    have htrim : jsTrim (httpsUrlL secure host A B) = httpsUrlL secure host A B := by
      apply jsTrim_id
      · intro c hc
        cases secure with
        | false =>
          have hh : (httpsUrlL false host A B).head? = some 'h' := rfl
          rw [hh] at hc
          obtain rfl := Option.some_inj.mp hc
          decide
        | true =>
          have hh : (httpsUrlL true host A B).head? = some 'h' := rfl
          rw [hh] at hc
          obtain rfl := Option.some_inj.mp hc
          decide
      · intro c hc
        rw [hurl, List.getLast?_append_of_ne_nil _ hB0] at hc
        exact hlastB c hc
    refine ⟨detectProviderL (httpsUrlL secure host A B), ?_⟩
    rw [parseRemoteUrl]
    rw [show (⟨httpsUrlL secure host A B⟩ : String).data =
        httpsUrlL secure host A B from rfl]
    rw [htrim, parseTrimmed]
    simp only [haz1, haz2, hsearch]
    simp [grp, List.lookup, hstrip]
  · intro haz1 haz2 hweb
    have heval := scpRE_eval hh0 hhostC hA0 hAdot hB0 hBq
    have hsearch := searchRE_head heval
    have hurl : scpUrlL host A B =
        (('g' :: 'i' :: 't' :: '@' ::[]) ++ host ++ (':' :: A) ++ ('/' :: [])) ++ B := by
      rw [scpUrlL]
      simp
    have htrim : jsTrim (scpUrlL host A B) = scpUrlL host A B := by
      apply jsTrim_id
      · intro c hc
        have hh : (scpUrlL host A B).head? = some 'g' := rfl
        rw [hh] at hc
        obtain rfl := Option.some_inj.mp hc
        decide
      · intro c hc
        rw [hurl, List.getLast?_append_of_ne_nil _ hB0] at hc
        exact hlastB c hc
    refine ⟨detectProviderL (scpUrlL host A B), ?_⟩
    rw [parseRemoteUrl]
    rw [show (⟨scpUrlL host A B⟩ : String).data = scpUrlL host A B from rfl]
    rw [htrim, parseTrimmed]
    simp only [haz1, haz2, hweb, hsearch]
    simp [grp, List.lookup, hstrip]
  · intro haz1 haz2 hweb hscp
    have heval := sshUrlRE_eval hh0 hhostS hA0 hAdot hB0 hBq
    have hsearch := searchRE_head heval
    have hurl : sshUrlL host A B =
        (('s' :: 's' :: 'h' :: ':' :: '/' :: '/' :: 'g' :: 'i' :: 't' :: '@' ::[]) ++ host ++
          ('/' :: A) ++ ('/' :: [])) ++ B := by
      rw [sshUrlL]
      simp
    have htrim : jsTrim (sshUrlL host A B) = sshUrlL host A B := by
      apply jsTrim_id
      · intro c hc
        have hh : (sshUrlL host A B).head? = some 's' := rfl
        rw [hh] at hc
        obtain rfl := Option.some_inj.mp hc
        decide
      · intro c hc
        rw [hurl, List.getLast?_append_of_ne_nil _ hB0] at hc
        exact hlastB c hc
    refine ⟨detectProviderL (sshUrlL host A B), ?_⟩
    rw [parseRemoteUrl]
    rw [show (⟨sshUrlL host A B⟩ : String).data = sshUrlL host A B from rfl]
    rw [htrim, parseTrimmed]
    simp only [haz1, haz2, hweb, hscp, hsearch]
    simp [grp, List.lookup, hstrip]

/-- C2 witness: the three branch conclusions at a concrete three-segment
owner path with a `.git` suffix, all hypotheses discharged by
computation. -/
theorem claim2_witness :
    (∃ p, parseRemoteUrl ⟨httpsUrlL true glL
        (joinSegs (('a' ::[]) :: ('b' ::[]) :: ('c' ::[]) :: []))
        (('r' :: 'e' :: 'p' :: 'o' ::[]) ++ (if true then gitL else []))⟩ =
      some { provider := p, host := ⟨glL⟩,
             owner := ⟨joinSegs (('a' ::[]) :: ('b' ::[]) :: ('c' ::[]) :: [])⟩,
             repo := ⟨'r' :: 'e' :: 'p' :: 'o' ::[]⟩ }) ∧
    (∃ p, parseRemoteUrl ⟨scpUrlL glL
        (joinSegs (('a' ::[]) :: ('b' ::[]) :: ('c' ::[]) :: []))
        (('r' :: 'e' :: 'p' :: 'o' ::[]) ++ (if true then gitL else []))⟩ =
      some { provider := p, host := ⟨glL⟩,
             owner := ⟨joinSegs (('a' ::[]) :: ('b' ::[]) :: ('c' ::[]) :: [])⟩,
             repo := ⟨'r' :: 'e' :: 'p' :: 'o' ::[]⟩ }) ∧
    (∃ p, parseRemoteUrl ⟨sshUrlL glL
        (joinSegs (('a' ::[]) :: ('b' ::[]) :: ('c' ::[]) :: []))
        (('r' :: 'e' :: 'p' :: 'o' ::[]) ++ (if true then gitL else []))⟩ =
      some { provider := p, host := ⟨glL⟩,
             owner := ⟨joinSegs (('a' ::[]) :: ('b' ::[]) :: ('c' ::[]) :: [])⟩,
             repo := ⟨'r' :: 'e' :: 'p' :: 'o' ::[]⟩ }) := by
  have h := claim2_nesting_generality true true glL
    (('a' ::[]) :: ('b' ::[]) :: ('c' ::[]) :: []) ('r' :: 'e' :: 'p' :: 'o' ::[])
    (by decide) (by decide) (by decide) (by decide) (by decide) (by decide) (by decide)
  exact ⟨h.1 (by decide) (by decide),
    h.2.1 (by decide) (by decide) (by decide),
    h.2.2 (by decide) (by decide) (by decide) (by decide)⟩

/-- C5 amended witness: instances of both universal conjuncts — a padded
URL parses identically, and a concrete trailing slash yields absent. -/
theorem claim5_amended_witness :
    parseRemoteUrl ⟨(' ' :: []) ++ ("https://github.com/user/repo.git" : String).data ++
        ('\n' :: [])⟩ =
      parseRemoteUrl "https://github.com/user/repo.git" ∧
    parseRemoteUrl ⟨("https://github.com/user/repo" : String).data ++ ('/' :: [])⟩ = none :=
  ⟨claim5_amended.1 (' ' :: []) ('\n' :: []) "https://github.com/user/repo.git"
      (by decide) (by decide),
   claim5_amended.2.1 "https://github.com/user/repo"⟩

end OMC
